import Mathlib

/-!
# Verification of rust-coinselect against its specification

Shallow embedding of the `rust-coinselect` coin-selection library.
The files `src/selectcoin.rs`, `src/algorithms/bnb.rs`,
`src/algorithms/leastchange.rs` and `src/algorithms/lowestlarger.rs` are
embedded from their sources.  The repository's `types.rs`, `utils.rs`,
`algorithms/fifo.rs` and `algorithms/knapsack.rs` are not among the provided
sources; those definitions are modelled from the specification and are marked
as such in their doc comments.

Modelling conventions:
* `u64` values are modelled as `Nat`; the overflow-checked helper `sum`
  carries the explicit `2^64` bound from the spec.  Rust's unchecked `+`
  (which panics in debug builds on overflow) is modelled as plain `Nat`
  addition, and Rust's saturating subtraction is `Nat` subtraction.
* `f32` quantities (fee rates, the waste score) are modelled as exact
  fractions `Q` (integer numerator over natural denominator, not reduced);
  a zero denominator models a non-finite `f32` (NaN/±∞), and comparisons
  follow IEEE semantics: nothing is less than a non-finite value, so
  `partial_cmp` on such values yields `Equal` after `unwrap_or(Equal)`.
  Rounding error of `f32` arithmetic is not modelled.
* fallible Rust functions returning `Result` are modelled with `Except`.
-/

namespace CoinSelect

/-- An exact fraction standing in for `f32`: numerator over denominator,
never reduced.  `den = 0` models a non-finite value (NaN/±∞). -/
structure Q where
  num : Int
  den : Nat
deriving DecidableEq

/-- Embed a `u64` quantity into the `f32` model. -/
def Q.ofNat (n : Nat) : Q := ⟨n, 1⟩

/-- Exact `f32` subtraction. -/
def Q.sub (a b : Q) : Q := ⟨a.num * b.den - b.num * a.den, a.den * b.den⟩

/-- Exact `f32` addition. -/
def Q.add (a b : Q) : Q := ⟨a.num * b.den + b.num * a.den, a.den * b.den⟩

/-- Exact `u64 as f32 * f32` multiplication. -/
def Q.mulNat (n : Nat) (q : Q) : Q := ⟨n * q.num, q.den⟩

/-- `f32 <` with IEEE semantics: false whenever either side is non-finite,
cross-multiplied comparison otherwise. -/
def Q.blt (a b : Q) : Bool :=
  a.den ≠ 0 && b.den ≠ 0 && decide (a.num * b.den < b.num * a.den)

/-- Modelled from the spec: `types.rs` is not among the provided sources.
An `OutputGroup` is a spendable candidate (spec §3, mirrored by the fuzz
harness's `ArbitraryOutputGroup`). -/
structure OutputGroup where
  value : Nat
  weight : Nat
  input_count : Nat
  creation_sequence : Option Nat
deriving DecidableEq

instance : Inhabited OutputGroup := ⟨⟨0, 0, 0, none⟩⟩

/-- Modelled from the spec: `types.rs` is not among the provided sources.
Where surplus beyond the target goes (spec §3). -/
inductive ExcessStrategy where
  | ToFee
  | ToRecipient
  | ToChange
deriving DecidableEq

/-- Modelled from the spec: `types.rs` is not among the provided sources.
The error taxonomy of spec §3 / §7. -/
inductive SelectionError where
  | InsufficientFunds
  | NoSolutionFound
  | NonPositiveTarget
  | ArithmeticOverflow
  | InvalidFeeRate
deriving DecidableEq

/-- Modelled from the spec: `types.rs` is not among the provided sources.
Selection parameters (spec §3, mirrored by the fuzz harness's
`ArbitraryCoinSelectionOpt`).  The two fee rates are `f32` in Rust,
modelled by `Q`. -/
structure CoinSelectionOpt where
  target_value : Nat
  target_feerate : Q
  long_term_feerate : Option Q
  min_absolute_fee : Nat
  base_weight : Nat
  change_weight : Nat
  change_cost : Nat
  avg_input_weight : Nat
  avg_output_weight : Nat
  min_change_value : Nat
  excess_strategy : ExcessStrategy
deriving DecidableEq

/-- Modelled from the spec: `types.rs` is not among the provided sources.
A selection result: indices into the original input slice plus the
`WasteMetric(f32)` score. -/
structure SelectionOutput where
  selected_inputs : List Nat
  waste : Q
deriving DecidableEq

instance {ε α : Type} [DecidableEq ε] [DecidableEq α] : DecidableEq (Except ε α)
  | .ok a, .ok b =>
    if h : a = b then .isTrue (by rw [h]) else .isFalse (by simp [h])
  | .ok _, .error _ => .isFalse (by simp)
  | .error _, .ok _ => .isFalse (by simp)
  | .error a, .error b =>
    if h : a = b then .isTrue (by rw [h]) else .isFalse (by simp [h])

/-- Modelled from the spec: `utils.rs` is not among the provided sources.
Overflow-checked `u64` addition (spec §4.1): fails with
`ArithmeticOverflow` on `u64` overflow. -/
def sum (a b : Nat) : Except SelectionError Nat :=
  if a + b < 2 ^ 64 then .ok (a + b) else .error .ArithmeticOverflow

/-- Modelled from the spec: `utils.rs` is not among the provided sources.
`calculate_fee(weight, feerate) = ⌈weight × feerate⌉`; fails with
`InvalidFeeRate` when the feerate is negative or not finite (spec §4.1).
For a valid feerate `num/den` (so `num ≥ 0`, `den > 0`) the ceiling of
`weight·num/den` is `(weight·num + den - 1) / den` in natural division. -/
def calculate_fee (weight : Nat) (feerate : Q) : Except SelectionError Nat :=
  if feerate.den = 0 ∨ feerate.num < 0 then .error .InvalidFeeRate
  else .ok ((weight * feerate.num.toNat + feerate.den - 1) / feerate.den)

/-- Modelled from the spec: `utils.rs` is not among the provided sources.
`effective_value(group, feerate) = value − calculate_fee(weight, feerate)`,
saturating at 0 (spec §4.1). -/
def effective_value (g : OutputGroup) (feerate : Q) :
    Except SelectionError Nat := do
  let fee ← calculate_fee g.weight feerate
  return g.value - fee

/-- Modelled from the spec: `utils.rs` is not among the provided sources.
The waste metric of spec §4.2:
`waste = current_fee − total_weight·ltf + (has_change ? change_cost : excess)`
where `excess = total_value − target_value − current_fee` (saturating) and
`has_change ↔ excess_strategy = ToChange ∧ excess ≥ min_change_value`.
When `long_term_feerate` is absent the long-term term is zero. -/
def calculate_waste (opts : CoinSelectionOpt)
    (total_value total_weight current_fee : Nat) : Q :=
  let excess : Nat := total_value - opts.target_value - current_fee
  let ltfTerm : Q :=
    match opts.long_term_feerate with
    | some r => Q.mulNat total_weight r
    | none => Q.ofNat 0
  let waste_inputs : Q := (Q.ofNat current_fee).sub ltfTerm
  if opts.excess_strategy = ExcessStrategy.ToChange ∧ opts.min_change_value ≤ excess then
    waste_inputs.add (Q.ofNat opts.change_cost)
  else
    waste_inputs.add (Q.ofNat excess)

/-! ## A stable sort

Rust's `slice::sort_by` / `sort_by_key` are stable sorts.  The output of a
stable sort under a total preorder is unique, so we model them with a stable
insertion sort (kernel-reducible, unlike well-founded recursion). -/

/-- Insert `a` into `l`, after every element `b` with `le b a`. -/
def insertOrd (le : α → α → Bool) (a : α) : List α → List α
  | [] => [a]
  | b :: l => if le b a then b :: insertOrd le a l else a :: b :: l

/-- Stable sort by the total preorder `le` (models Rust's stable
`sort_by`/`sort_by_key`). -/
def stableSort (le : α → α → Bool) (l : List α) : List α :=
  l.foldl (fun acc a => insertOrd le a acc) []

theorem insertOrd_perm (le : α → α → Bool) (a : α) (l : List α) :
    (insertOrd le a l).Perm (a :: l) := by
  induction l with
  | nil => simp [insertOrd]
  | cons b t ih =>
    simp only [insertOrd]
    by_cases h : le b a
    · simp only [h, if_pos]
      exact (List.Perm.cons b ih).trans (List.Perm.swap a b t)
    · simp [h]

theorem stableSort_perm (le : α → α → Bool) (l : List α) :
    (stableSort le l).Perm l := by
  suffices h : ∀ acc : List α,
      (l.foldl (fun acc a => insertOrd le a acc) acc).Perm (acc ++ l) by
    simpa using h []
  induction l with
  | nil => intro acc; simp
  | cons b t ih =>
    intro acc
    simp only [List.foldl_cons]
    refine (ih (insertOrd le b acc)).trans ?_
    have h1 : (insertOrd le b acc ++ t).Perm ((b :: acc) ++ t) :=
      (insertOrd_perm le b acc).append_right t
    refine h1.trans ?_
    simp only [List.cons_append]
    exact (List.perm_middle).symm

/-- `Result::unwrap_or`: the value on `Ok`, the default on `Err`. -/
def exceptD (d : Nat) : Except SelectionError Nat → Nat
  | .ok v => v
  | .error _ => d

/-! ## Branch and Bound (`src/algorithms/bnb.rs`) -/

/-- The mutable context threaded through the BnB search
(`BnbContext` in `bnb.rs`). -/
structure BnbContext where
  target_for_match : Nat
  match_range : Nat
  options : CoinSelectionOpt
  tries : Nat
  best_solution : Option (List Nat × Q)

/-- The recursive search of `bnb.rs` (`fn bnb`).  The Rust function walks
`sorted` from a `depth` cursor; here the remaining suffix of the sorted list
is the recursion argument, so `rest = []` is `depth >= sorted.len()`. -/
def bnb (ctx : BnbContext) (selected : List Nat) (accValue accWeight : Nat) :
    List (Nat × OutputGroup) → BnbContext
  | [] => ctx
  | (index, input) :: rest =>
    if ctx.tries = 0 then ctx
    else
      let ctx1 : BnbContext := { ctx with tries := ctx.tries - 1 }
      let fee := exceptD ctx1.options.min_absolute_fee
        (calculate_fee accWeight ctx1.options.target_feerate)
      let effectiveValue := accValue - fee
      if ctx1.target_for_match + ctx1.match_range < effectiveValue then ctx1
      else if ctx1.target_for_match ≤ effectiveValue then
        let waste := calculate_waste ctx1.options accValue accWeight fee
        let better := match ctx1.best_solution with
          | none => true
          | some b => waste.blt b.2
        if better then { ctx1 with best_solution := some (selected, waste) } else ctx1
      else
        let inputEffectiveValue := input.value - exceptD ctx1.options.min_absolute_fee
          (calculate_fee input.weight ctx1.options.target_feerate)
        let ctx2 := bnb ctx1 (selected ++ [index]) (accValue + inputEffectiveValue)
          (accWeight + input.weight) rest
        bnb ctx2 selected accValue accWeight rest

/-- `sort_by_key(|(_, input)| input.value)`: value-ascending, stable. -/
def byValueLe (a b : Nat × OutputGroup) : Bool := a.2.value ≤ b.2.value

/-- `select_coin_bnb` from `bnb.rs`. -/
def select_coin_bnb (inputs : List OutputGroup) (options : CoinSelectionOpt) :
    Except SelectionError SelectionOutput := do
  let cost_per_input ← calculate_fee options.avg_input_weight options.target_feerate
  let cost_per_output ← calculate_fee options.avg_output_weight options.target_feerate
  let base_fee ← calculate_fee options.base_weight options.target_feerate
  let sorted_inputs := stableSort byValueLe inputs.enum
  let ctx : BnbContext := {
    target_for_match := options.target_value + options.min_change_value +
      max base_fee options.min_absolute_fee
    match_range := cost_per_input + cost_per_output
    options := options
    tries := 1000000
    best_solution := none }
  let ctxFinal := bnb ctx [] 0 0 sorted_inputs
  match ctxFinal.best_solution with
  | some (selected, waste) => .ok { selected_inputs := selected, waste := waste }
  | none => .error .NoSolutionFound

/-! ## Least-change Branch and Bound (`src/algorithms/leastchange.rs`) -/

/-- The search state of `leastchange.rs` (`struct BnBState`). -/
structure BnBState where
  index : Nat
  current_eff_value : Nat
  current_selection : List Nat
  current_count : Nat
  current_weight : Nat

/-- Entry `i` of the `remaining_net` suffix-sum table of `leastchange.rs`:
the sum of the net values of `filtered` from position `i` onward. -/
def suffixNet (filtered : List (Nat × Nat × Nat)) (i : Nat) : Nat :=
  ((filtered.drop i).map (fun x => x.2.1)).sum

/-- Descending sort comparator of `leastchange.rs`
(`sort_by(|(_, a, _), (_, b, _)| b.cmp(a))`), stable. -/
def byNetDesc (a b : Nat × Nat × Nat) : Bool := b.2.1 ≤ a.2.1

/-- The explicit-stack DFS loop of `select_coin_bnb_leastchange`
(`while let Some(state) = stack.pop()`).  The loop terminates because the
measure `Σ_{s ∈ stack} 3^(n + 1 - s.index)` strictly decreases at every
iteration; the fuel passed by the caller, `3^(n+1)`, bounds that initial
measure, so the fuel never runs out. -/
def lcLoop (opts : CoinSelectionOpt) (filtered : List (Nat × Nat × Nat)) (target : Nat) :
    Nat → List BnBState → Option (List Nat × Nat × Nat) → Option (List Nat × Nat × Nat)
  | 0, _, best => best
  | _ + 1, [], best => best
  | fuel + 1, state :: stack, best =>
    let n := filtered.length
    if n ≤ state.index then lcLoop opts filtered target fuel stack best
    else if state.current_eff_value + suffixNet filtered state.index < target then
      lcLoop opts filtered target fuel stack best
    else
      let skipState : BnBState := {
        index := state.index + 1
        current_eff_value := state.current_eff_value
        current_selection := state.current_selection
        current_count := state.current_count
        current_weight := state.current_weight }
      let entry := filtered.getD state.index (0, 0, 0)
      let new_eff_value := state.current_eff_value + entry.2.1
      let new_selection := state.current_selection ++ [entry.1]
      let new_count := state.current_count + 1
      let new_weight := state.current_weight + entry.2.2
      let estimated_fees := exceptD 0 (calculate_fee new_weight opts.target_feerate)
      let required_value := opts.target_value + max estimated_fees opts.min_absolute_fee +
        opts.min_change_value
      if required_value ≤ new_eff_value then
        let change := new_eff_value - required_value
        let update := match best with
          | none => true
          | some (_, best_change, best_count) =>
            decide (change < best_change) ||
              (decide (change = best_change) && decide (new_count < best_count))
        lcLoop opts filtered target fuel (skipState :: stack)
          (if update then some (new_selection, change, new_count) else best)
      else
        lcLoop opts filtered target fuel
          ({ index := state.index + 1, current_eff_value := new_eff_value,
             current_selection := new_selection, current_count := new_count,
             current_weight := new_weight } :: skipState :: stack) best

/-- The per-input preparation of `select_coin_bnb_leastchange`
(`leastchange.rs` lines 26-35): keep `(index, net value, weight)` when the
effective value computes and is positive, drop the input otherwise. -/
def lcFilter (fr : Q) (p : Nat × OutputGroup) : Option (Nat × Nat × Nat) :=
  match effective_value p.2 fr with
  | .ok net_value => if 0 < net_value then some (p.1, net_value, p.2.weight) else none
  | .error _ => none

/-- `select_coin_bnb_leastchange` from `leastchange.rs`. -/
def select_coin_bnb_leastchange (inputs : List OutputGroup) (options : CoinSelectionOpt) :
    Except SelectionError SelectionOutput :=
  let target := options.target_value + options.min_change_value
  let filtered0 := inputs.enum.filterMap (lcFilter options.target_feerate)
  let filtered := stableSort byNetDesc filtered0
  let initState : BnBState :=
    { index := 0, current_eff_value := 0, current_selection := []
      current_count := 0, current_weight := 0 }
  match lcLoop options filtered target (3 ^ (filtered.length + 1)) [initState] none with
  | some (selected_inputs, _, _) =>
    let total_value := (selected_inputs.map (fun i => (inputs.getD i default).value)).sum
    let total_weight := (selected_inputs.map (fun i => (inputs.getD i default).weight)).sum
    let estimated_fees := exceptD 0 (calculate_fee total_weight options.target_feerate)
    .ok { selected_inputs := selected_inputs,
          waste := calculate_waste options total_value total_weight estimated_fees }
  | none => .error .InsufficientFunds

/-! ## Lowest larger (`src/algorithms/lowestlarger.rs`) -/

/-- Rust's `slice::partition_point` binary search.  `right - left` strictly
decreases every iteration, so `l.length + 1` fuel (supplied by
`partitionPoint`) is never exhausted. -/
def partitionPointGo (l : List (Nat × OutputGroup)) (p : Nat × OutputGroup → Bool) :
    Nat → Nat → Nat → Nat
  | 0, left, _ => left
  | fuel + 1, left, right =>
    if right ≤ left then left
    else
      let mid := left + (right - left) / 2
      if p (l.getD mid default) then partitionPointGo l p fuel (mid + 1) right
      else partitionPointGo l p fuel left mid

/-- Rust's `slice::partition_point`. -/
def partitionPoint (l : List (Nat × OutputGroup)) (p : Nat × OutputGroup → Bool) : Nat :=
  partitionPointGo l p (l.length + 1) 0 (l.length)

/-- The accumulation loop shared by `lowestlarger.rs` (both of its `for`
loops) and the spec-modelled FIFO and knapsack algorithms: push the next
input, update the running value, weight and fee, and stop once the running
value reaches the threshold `thr fee`.  Returns
`(reached, acc_value, acc_weight, estimated_fees, selected)`; `reached` is
false when the list was exhausted without hitting the threshold. -/
def accumulate (fr : Q) (thr : Nat → Except SelectionError Nat) :
    List (Nat × OutputGroup) → Nat → Nat → Nat → List Nat →
    Except SelectionError (Bool × Nat × Nat × Nat × List Nat)
  | [], accValue, accWeight, fees, selected => .ok (false, accValue, accWeight, fees, selected)
  | (idx, input) :: rest, accValue, accWeight, _fees, selected => do
    let accValue1 ← sum accValue input.value
    let accWeight1 ← sum accWeight input.weight
    let fees1 ← calculate_fee accWeight1 fr
    let selected1 := selected ++ [idx]
    let t ← thr fees1
    if t ≤ accValue1 then .ok (true, accValue1, accWeight1, fees1, selected1)
    else accumulate fr thr rest accValue1 accWeight1 fees1 selected1

/-- `sort_by_key` on the `Result`-valued effective value (`lowestlarger.rs`
line 24): `Ok` sorts before `Err` and `Ok` values compare by the inner
number.  The only error a key can carry is `InvalidFeeRate`, the same for
every input, so errors compare as equal. -/
def llSortLe (fr : Q) (a b : Nat × OutputGroup) : Bool :=
  match effective_value a.2 fr, effective_value b.2 fr with
  | .ok x, .ok y => x ≤ y
  | .ok _, .error _ => true
  | .error _, .ok _ => false
  | .error _, .error _ => true

/-- `select_coin_lowestlarger` from `lowestlarger.rs`. -/
def select_coin_lowestlarger (inputs : List OutputGroup) (options : CoinSelectionOpt) :
    Except SelectionError SelectionOutput := do
  let base_fees ← calculate_fee options.base_weight options.target_feerate
  let target ← sum (← sum options.target_value options.min_change_value)
    (max base_fees options.min_absolute_fee)
  let sorted_inputs := stableSort (llSortLe options.target_feerate) inputs.enum
  let index := partitionPoint sorted_inputs (fun q =>
    match calculate_fee q.2.weight options.target_feerate with
    | .ok fee =>
      match sum target fee with
      | .ok target_and_fee => decide (q.2.value ≤ target_and_fee)
      | .error _ => false
    | .error _ => false)
  let r1 ← accumulate options.target_feerate (fun f => sum target f)
    ((sorted_inputs.take index).reverse) 0 0 0 []
  let thr1 ← sum target r1.2.2.2.1
  let r2 ← if r1.2.1 < thr1 then
      accumulate options.target_feerate
        (fun f => sum target (max f options.min_absolute_fee))
        (sorted_inputs.drop index) r1.2.1 r1.2.2.1 r1.2.2.2.1 r1.2.2.2.2
    else pure r1
  let thr2 ← sum target r2.2.2.2.1
  if r2.2.1 < thr2 then .error .InsufficientFunds
  else .ok { selected_inputs := r2.2.2.2.2
             waste := calculate_waste options r2.2.1 r2.2.2.1 r2.2.2.2.1 }

/-! ## FIFO (spec-modelled) -/

/-- `creation_sequence` ascending, `None` greater than any `Some` (spec §4.6),
stable. -/
def fifoLe (a b : Nat × OutputGroup) : Bool :=
  match a.2.creation_sequence, b.2.creation_sequence with
  | some x, some y => x ≤ y
  | some _, none => true
  | none, some _ => false
  | none, none => true

/-- The stop threshold of the spec-modelled FIFO and knapsack loops:
`target_value + max(current_fee, min_absolute_fee) + min_change_value`
(spec §4.6), with overflow-checked additions. -/
def fifoThreshold (options : CoinSelectionOpt) (fee : Nat) :
    Except SelectionError Nat := do
  let a ← sum options.target_value (max fee options.min_absolute_fee)
  sum a options.min_change_value

/-- Modelled from the spec: `algorithms/fifo.rs` is not among the provided
sources.  Spec §4.6: sort a copy of the inputs by `creation_sequence`
ascending with `None` treated as greater than any `Some` (stable), accumulate
greedily until `acc_value ≥ target_value + max(current_fee, min_absolute_fee)
+ min_change_value`, and fail with `InsufficientFunds` when exhausted.
`current_fee` is taken to be the fee of the accumulated input weight. -/
def select_coin_fifo (inputs : List OutputGroup) (options : CoinSelectionOpt) :
    Except SelectionError SelectionOutput := do
  let sorted_inputs := stableSort fifoLe inputs.enum
  let r ← accumulate options.target_feerate (fifoThreshold options) sorted_inputs 0 0 0 []
  if r.1 then
    .ok { selected_inputs := r.2.2.2.2
          waste := calculate_waste options r.2.1 r.2.2.1 r.2.2.2.1 }
  else .error .InsufficientFunds

/-! ## Knapsack (spec-modelled) -/

/-- The reduction pass of the spec-modelled knapsack: walk the accumulated
selection and drop any input whose removal keeps the running value at or
above the threshold (spec §4.7 "remove an input if removing it still leaves
the selection above target"). -/
def knapPrune (fr : Q) (thr : Nat → Except SelectionError Nat) :
    List (Nat × OutputGroup) → List (Nat × OutputGroup) → Nat → Nat →
    List (Nat × OutputGroup) × Nat × Nat
  | [], kept, accValue, accWeight => (kept, accValue, accWeight)
  | (idx, input) :: rest, kept, accValue, accWeight =>
    let v1 := accValue - input.value
    let w1 := accWeight - input.weight
    let canDrop := match calculate_fee w1 fr with
      | .ok f =>
        match thr f with
        | .ok t => decide (t ≤ v1)
        | .error _ => false
      | .error _ => false
    if canDrop then knapPrune fr thr rest kept v1 w1
    else knapPrune fr thr rest (kept ++ [(idx, input)]) accValue accWeight

/-- Modelled from the spec: `algorithms/knapsack.rs` is not among the
provided sources.  Spec §4.7: N identical-signature trials of "shuffle with
the injected PRNG, accumulate until the target is met, then remove redundant
inputs", keeping the best by waste; it is deterministic given a seeded PRNG.
`select_coin` supplies no seed, so the model fixes the identity shuffle,
under which every trial coincides with a single pass in input order. -/
def select_coin_knapsack (inputs : List OutputGroup) (options : CoinSelectionOpt) :
    Except SelectionError SelectionOutput := do
  let r ← accumulate options.target_feerate (fifoThreshold options) inputs.enum 0 0 0 []
  if r.1 then
    let pairs := (r.2.2.2.2).map (fun i => (i, inputs.getD i default))
    let pruned := knapPrune options.target_feerate (fifoThreshold options) pairs [] r.2.1 r.2.2.1
    let fee := exceptD 0 (calculate_fee pruned.2.2 options.target_feerate)
    .ok { selected_inputs := pruned.1.map (fun q => q.1)
          waste := calculate_waste options pruned.2.1 pruned.2.2 fee }
  else .error .InsufficientFunds

/-! ## Meta-selector (`src/selectcoin.rs`) -/

/-- `Ord::cmp` on naturals. -/
def cmpNat (a b : Nat) : Ordering :=
  if a < b then .lt else if b < a then .gt else .eq

/-- `partial_cmp(..).unwrap_or(Equal)` on the `f32` waste score: `Equal`
whenever either side is non-finite (the NaN fallback), the exact comparison
otherwise. -/
def cmpQ (a b : Q) : Ordering :=
  if a.blt b then .lt else if b.blt a then .gt else .eq

/-- The comparator of `select_coin`'s `min_by` (lines 59-69): change, then
waste, then number of selected inputs. -/
def resultCmp (a b : SelectionOutput × Nat) : Ordering :=
  (cmpNat a.2 b.2).then ((cmpQ a.1.waste b.1.waste).then
    (cmpNat a.1.selected_inputs.length b.1.selected_inputs.length))

/-- Rust's `Iterator::min_by`: fold keeping the earlier element unless the
comparison says `Greater` (so the first minimum wins). -/
def minBy (cmp : α → α → Ordering) : List α → Option α
  | [] => none
  | x :: xs => some (xs.foldl (fun acc y => if cmp acc y = .gt then y else acc) x)

/-- `inputs[idx].value`; out-of-range indexing (a Rust panic) is modelled by
the default group, and only in-range indices actually occur. -/
def inputValueAt (inputs : List OutputGroup) (idx : Nat) : Nat :=
  (inputs.getD idx default).value

/-- The raw-value total of a selection (the `input_amount` of
`selectcoin.rs` lines 43-47). -/
def rawSum (inputs : List OutputGroup) (sel : List Nat) : Nat :=
  (sel.map (inputValueAt inputs)).sum

/-- The algorithm registry of `selectcoin.rs` lines 32-39
(`srd` is commented out in the source). -/
def algorithms :
    List (String × (List OutputGroup → CoinSelectionOpt → Except SelectionError SelectionOutput)) :=
  [("bnb", select_coin_bnb),
   ("fifo", select_coin_fifo),
   ("lowestlarger", select_coin_lowestlarger),
   ("knapsack", select_coin_knapsack),
   ("leastchange", select_coin_bnb_leastchange)]

/-- The `results` vector collected by `select_coin` (lines 41-51): each
algorithm's `Ok` output paired with its change, where change is
`input_amount.saturating_sub(target_value)`, i.e. truncated subtraction. -/
def resultsOf (inputs : List OutputGroup) (options : CoinSelectionOpt) :
    List (SelectionOutput × Nat) :=
  algorithms.filterMap (fun p =>
    match p.2 inputs options with
    | .ok result => some (result, rawSum inputs result.selected_inputs - options.target_value)
    | .error _ => none)

/-- `select_coin` from `selectcoin.rs`.  The source also builds an unused
value-sorted copy of the inputs (lines 29-30), omitted here. -/
def select_coin (inputs : List OutputGroup) (options : CoinSelectionOpt) :
    Except SelectionError SelectionOutput :=
  if options.target_value = 0 then .error .NonPositiveTarget
  else
    match minBy resultCmp (resultsOf inputs options) with
    | some q => .ok q.1
    | none => .error .InsufficientFunds

/-! ## Helpers used by the statements -/

/-- The sum of `effective_value` over selected indices, counting a failed
computation as 0 — exactly the accounting of the repository's own property
test `solutions_fulfill_target` (`selectcoin.rs` lines 87-103), which
`filter_map`s the `Ok` values. -/
def effSum (inputs : List OutputGroup) (fr : Q) (sel : List Nat) : Nat :=
  (sel.map (fun i => exceptD 0 (effective_value (inputs.getD i default) fr))).sum

/-- The total weight of a selection. -/
def weightSum (inputs : List OutputGroup) (sel : List Nat) : Nat :=
  (sel.map (fun i => (inputs.getD i default).weight)).sum

/-- The selected indices of a selection result (`[]` on error). -/
def selectedOf : Except SelectionError SelectionOutput → List Nat
  | .ok r => r.selected_inputs
  | .error _ => []

/-- Whether a selection result is an error. -/
def isErr : Except SelectionError SelectionOutput → Bool
  | .ok _ => false
  | .error _ => true

/-! ## Infrastructure lemmas -/

/-- A feerate accepted by `calculate_fee`: finite and non-negative. -/
def validRate (fr : Q) : Prop := fr.den ≠ 0 ∧ 0 ≤ fr.num

instance (fr : Q) : Decidable (validRate fr) := by
  unfold validRate; infer_instance

/-- The fee `calculate_fee` returns on a valid feerate. -/
def feeVal (w : Nat) (fr : Q) : Nat := (w * fr.num.toNat + fr.den - 1) / fr.den

theorem calculate_fee_eq_ok {fr : Q} (w : Nat) (h : validRate fr) :
    calculate_fee w fr = .ok (feeVal w fr) := by
  unfold calculate_fee feeVal
  rw [if_neg]
  push_neg
  exact ⟨h.1, h.2⟩

theorem calculate_fee_eq_error {fr : Q} (w : Nat) (h : ¬ validRate fr) :
    calculate_fee w fr = .error .InvalidFeeRate := by
  unfold calculate_fee
  rw [if_pos]
  unfold validRate at h
  push_neg at h
  by_cases hd : fr.den = 0
  · exact Or.inl hd
  · exact Or.inr (h hd)

theorem validRate_of_fee_ok {fr : Q} {w f : Nat}
    (h : calculate_fee w fr = .ok f) : validRate fr := by
  by_contra hv
  rw [calculate_fee_eq_error w hv] at h
  exact absurd h (by simp)

theorem fee_ok_eq {fr : Q} {w f : Nat}
    (h : calculate_fee w fr = .ok f) : f = feeVal w fr := by
  have hv := validRate_of_fee_ok h
  rw [calculate_fee_eq_ok w hv] at h
  exact (Except.ok.inj h).symm

theorem feeVal_mono {fr : Q} {w w' : Nat} (h : w ≤ w') :
    feeVal w fr ≤ feeVal w' fr := by
  unfold feeVal
  exact Nat.div_le_div_right (Nat.sub_le_sub_right
    (Nat.add_le_add_right (Nat.mul_le_mul_right _ h) _) 1)

theorem except_bind_ok {α β : Type} {x : Except SelectionError α}
    {f : α → Except SelectionError β} {b : β} :
    (x >>= f) = .ok b ↔ ∃ a, x = .ok a ∧ f a = .ok b := by
  cases x with
  | ok a => simp [Bind.bind, Except.bind]
  | error e => simp [Bind.bind, Except.bind]

theorem except_bind_error {α β : Type} {x : Except SelectionError α}
    {f : α → Except SelectionError β} {e : SelectionError} :
    (x >>= f) = .error e ↔ x = .error e ∨ ∃ a, x = .ok a ∧ f a = .error e := by
  cases x with
  | ok a => simp [Bind.bind, Except.bind]
  | error e => simp [Bind.bind, Except.bind]

theorem sum_ok {a b c : Nat} (h : sum a b = .ok c) : c = a + b := by
  unfold sum at h
  by_cases hlt : a + b < 2 ^ 64
  · rw [if_pos hlt] at h
    exact (Except.ok.inj h).symm
  · rw [if_neg hlt] at h
    exact absurd h (by simp)

theorem sum_eq_ok {a b : Nat} (h : a + b < 2 ^ 64) : sum a b = .ok (a + b) := by
  unfold sum
  rw [if_pos h]

/-- An `(index, group)` pair drawn from `inputs.enum` (possibly reordered):
the index is in range and looks the group up. -/
def EntOk (inputs : List OutputGroup) (p : Nat × OutputGroup) : Prop :=
  p.1 < inputs.length ∧ inputs.getD p.1 default = p.2

theorem entOk_of_mem_enum {inputs : List OutputGroup} {p : Nat × OutputGroup}
    (h : p ∈ inputs.enum) : EntOk inputs p := by
  rw [List.mem_enum_iff_getElem?] at h
  have hlt : p.1 < inputs.length := by
    by_contra hge
    rw [List.getElem?_eq_none (le_of_not_lt hge)] at h
    exact absurd h (by simp)
  refine ⟨hlt, ?_⟩
  rw [List.getD_eq_getElem?_getD, h]
  rfl

theorem enum_fst_nodup (inputs : List OutputGroup) :
    (inputs.enum.map Prod.fst).Nodup :=
  List.nodup_enum_map_fst inputs

theorem rawSum_append (inputs : List OutputGroup) (s t : List Nat) :
    rawSum inputs (s ++ t) = rawSum inputs s + rawSum inputs t := by
  simp [rawSum]

theorem weightSum_append (inputs : List OutputGroup) (s t : List Nat) :
    weightSum inputs (s ++ t) = weightSum inputs s + weightSum inputs t := by
  simp [weightSum]

theorem rawSum_single {inputs : List OutputGroup} {p : Nat × OutputGroup}
    (h : EntOk inputs p) : rawSum inputs [p.1] = p.2.value := by
  simp only [rawSum, List.map_cons, List.map_nil, List.sum_cons, List.sum_nil,
    Nat.add_zero, inputValueAt]
  rw [h.2]

theorem weightSum_single {inputs : List OutputGroup} {p : Nat × OutputGroup}
    (h : EntOk inputs p) : weightSum inputs [p.1] = p.2.weight := by
  simp only [weightSum, List.map_cons, List.map_nil, List.sum_cons, List.sum_nil,
    Nat.add_zero]
  rw [h.2]

/-- Everything `accumulate` guarantees about a successful run whose initial
accumulators agree with the initial selection: the final selection extends
the initial one by the indices of a prefix of the items, the accumulators
track it, the fee is the fee of the accumulated weight, on `reached` the
threshold was met and on exhaustion every item was taken. -/
theorem accumulate_spec (inputs : List OutputGroup) {fr : Q}
    {thr : Nat → Except SelectionError Nat} :
    ∀ {items : List (Nat × OutputGroup)} {v w f : Nat} {sel : List Nat}
      {b : Bool} {v' w' f' : Nat} {sel' : List Nat},
    accumulate fr thr items v w f sel = .ok (b, v', w', f', sel') →
    (∀ p ∈ items, EntOk inputs p) →
    v = rawSum inputs sel → w = weightSum inputs sel → f = feeVal w fr →
    validRate fr →
    (∃ pre post, items = pre ++ post ∧ sel' = sel ++ pre.map Prod.fst) ∧
    v' = rawSum inputs sel' ∧ w' = weightSum inputs sel' ∧ f' = feeVal w' fr ∧
    (b = true → ∃ t, thr f' = .ok t ∧ t ≤ v') ∧
    (b = false → sel' = sel ++ items.map Prod.fst) := by
  intro items
  induction items with
  | nil =>
    intro v w f sel b v' w' f' sel' hrun _ hv hw hf hvr
    unfold accumulate at hrun
    obtain ⟨hb, hv', hw', hf', hsel'⟩ :
        b = false ∧ v' = v ∧ w' = w ∧ f' = f ∧ sel' = sel := by
      have := Except.ok.inj hrun
      refine ⟨?_, ?_, ?_, ?_, ?_⟩ <;> cases this <;> rfl
    subst hb hv' hw' hf' hsel'
    exact ⟨⟨[], [], by simp, by simp⟩, hv, hw, hf, by simp, by simp⟩
  | cons hd rest ih =>
    intro v w f sel b v' w' f' sel' hrun hitems hv hw hf hvr
    obtain ⟨idx, input⟩ := hd
    have hent : EntOk inputs (idx, input) := hitems _ (by simp)
    unfold accumulate at hrun
    rw [except_bind_ok] at hrun
    obtain ⟨v1, hv1, hrun⟩ := hrun
    rw [except_bind_ok] at hrun
    obtain ⟨w1, hw1, hrun⟩ := hrun
    rw [except_bind_ok] at hrun
    obtain ⟨f1, hf1, hrun⟩ := hrun
    rw [except_bind_ok] at hrun
    obtain ⟨t, ht, hrun⟩ := hrun
    have hv1e : v1 = v + input.value := sum_ok hv1
    have hw1e : w1 = w + input.weight := sum_ok hw1
    have hf1e : f1 = feeVal w1 fr := fee_ok_eq hf1
    have hvsel : v1 = rawSum inputs (sel ++ [idx]) := by
      rw [rawSum_append, ← hv, hv1e, rawSum_single hent]
    have hwsel : w1 = weightSum inputs (sel ++ [idx]) := by
      rw [weightSum_append, ← hw, hw1e, weightSum_single hent]
    by_cases hbr : t ≤ v1
    · rw [if_pos hbr] at hrun
      obtain ⟨hb, hv', hw', hf', hsel'⟩ :
          b = true ∧ v' = v1 ∧ w' = w1 ∧ f' = f1 ∧ sel' = sel ++ [idx] := by
        have := Except.ok.inj hrun
        refine ⟨?_, ?_, ?_, ?_, ?_⟩ <;> cases this <;> rfl
      subst hb hv' hw' hf' hsel'
      refine ⟨⟨[(idx, input)], rest, by simp, by simp⟩, hvsel, hwsel, hf1e, ?_, by simp⟩
      intro _
      exact ⟨t, ht, hbr⟩
    · rw [if_neg hbr] at hrun
      have hrest : ∀ p ∈ rest, EntOk inputs p := fun p hp => hitems p (by simp [hp])
      obtain ⟨⟨pre, post, hsplit, hsel'⟩, hv', hw', hf', hreach, hexh⟩ :=
        ih hrun hrest hvsel hwsel hf1e hvr
      refine ⟨⟨(idx, input) :: pre, post, by simp [hsplit], by simp [hsel']⟩,
        hv', hw', hf', hreach, ?_⟩
      intro hb
      rw [hexh hb]
      simp

theorem except_ok_bind {α β : Type} (a : α) (f : α → Except SelectionError β) :
    ((.ok a : Except SelectionError α) >>= f) = f a := rfl

theorem feeVal_zero {fr : Q} (h : validRate fr) : feeVal 0 fr = 0 := by
  unfold feeVal
  rw [Nat.zero_mul, Nat.zero_add]
  exact Nat.div_eq_of_lt (Nat.sub_lt (Nat.pos_of_ne_zero h.1) Nat.one_pos)

/-- The raw-value total of a list of `(index, group)` pairs. -/
def pairValueSum (items : List (Nat × OutputGroup)) : Nat :=
  (items.map (fun p => p.2.value)).sum

/-- The weight total of a list of `(index, group)` pairs. -/
def pairWeightSum (items : List (Nat × OutputGroup)) : Nat :=
  (items.map (fun p => p.2.weight)).sum

theorem pairValueSum_perm {l l' : List (Nat × OutputGroup)} (h : l.Perm l') :
    pairValueSum l = pairValueSum l' := by
  unfold pairValueSum
  exact (h.map _).sum_eq

theorem pairWeightSum_perm {l l' : List (Nat × OutputGroup)} (h : l.Perm l') :
    pairWeightSum l = pairWeightSum l' := by
  unfold pairWeightSum
  exact (h.map _).sum_eq

/-- When every prefix of the items stays strictly below the (target-bounded)
threshold and no sum can overflow, `accumulate` exhausts the list and
reports exactly the item totals. -/
theorem accumulate_below {fr : Q} {thr : Nat → Except SelectionError Nat} {target0 : Nat} :
    ∀ {items : List (Nat × OutputGroup)} {v w f : Nat} {sel : List Nat},
    validRate fr →
    v + pairValueSum items < 2 ^ 64 →
    w + pairWeightSum items < 2 ^ 64 →
    (∀ g, g ≤ feeVal (w + pairWeightSum items) fr →
      ∃ t, thr g = .ok t ∧ target0 ≤ t) →
    v + pairValueSum items < target0 →
    f = feeVal w fr →
    accumulate fr thr items v w f sel =
      .ok (false, v + pairValueSum items, w + pairWeightSum items,
           feeVal (w + pairWeightSum items) fr, sel ++ items.map Prod.fst) := by
  intro items
  induction items with
  | nil =>
    intro v w f sel hvr _ _ _ _ hf
    simp [accumulate, pairValueSum, pairWeightSum, hf]
  | cons hd rest ih =>
    intro v w f sel hvr h64v h64w hthr hlow hf
    obtain ⟨idx, input⟩ := hd
    have hpv : pairValueSum ((idx, input) :: rest) = input.value + pairValueSum rest := by
      simp [pairValueSum]
    have hpw : pairWeightSum ((idx, input) :: rest) = input.weight + pairWeightSum rest := by
      simp [pairWeightSum]
    have hv1 : sum v input.value = .ok (v + input.value) :=
      sum_eq_ok (by omega)
    have hw1 : sum w input.weight = .ok (w + input.weight) :=
      sum_eq_ok (by omega)
    have hf1 : calculate_fee (w + input.weight) fr = .ok (feeVal (w + input.weight) fr) :=
      calculate_fee_eq_ok _ hvr
    obtain ⟨t, ht, htg⟩ := hthr (feeVal (w + input.weight) fr)
      (feeVal_mono (by omega))
    have hnb : ¬ t ≤ v + input.value := by omega
    unfold accumulate
    rw [hv1, except_ok_bind, hw1, except_ok_bind, hf1, except_ok_bind]
    simp only
    rw [ht, except_ok_bind, if_neg hnb]
    have e1 : v + pairValueSum ((idx, input) :: rest) = v + input.value + pairValueSum rest := by
      omega
    have e2 : w + pairWeightSum ((idx, input) :: rest) = w + input.weight + pairWeightSum rest := by
      omega
    have e3 : sel ++ ((idx, input) :: rest).map Prod.fst = (sel ++ [idx]) ++ rest.map Prod.fst := by
      simp
    rw [e1, e2, e3]
    refine ih hvr (by omega) (by omega) ?_ (by omega) rfl
    intro g hg
    have e4 : w + input.weight + pairWeightSum rest = w + pairWeightSum ((idx, input) :: rest) := by
      omega
    rw [e4] at hg
    exact hthr g hg

theorem stableSort_entOk {inputs : List OutputGroup} {le : Nat × OutputGroup → Nat × OutputGroup → Bool}
    {p : Nat × OutputGroup} (h : p ∈ stableSort le inputs.enum) : EntOk inputs p :=
  entOk_of_mem_enum ((stableSort_perm le inputs.enum).mem_iff.mp h)

theorem stableSort_enum_fst_nodup (inputs : List OutputGroup)
    (le : Nat × OutputGroup → Nat × OutputGroup → Bool) :
    ((stableSort le inputs.enum).map Prod.fst).Nodup :=
  (((stableSort_perm le inputs.enum).map Prod.fst).nodup_iff).mpr (enum_fst_nodup inputs)

/-- The raw-value total of the whole input slice. -/
def totalValue (inputs : List OutputGroup) : Nat :=
  (inputs.map (fun g => g.value)).sum

/-- The weight total of the whole input slice. -/
def totalWeight (inputs : List OutputGroup) : Nat :=
  (inputs.map (fun g => g.weight)).sum

theorem pairValueSum_enumFrom (l : List OutputGroup) :
    ∀ n, pairValueSum (l.enumFrom n) = totalValue l := by
  induction l with
  | nil => intro n; simp [pairValueSum, totalValue]
  | cons hd tl ih =>
    intro n
    simp only [List.enumFrom, pairValueSum, totalValue, List.map_cons, List.sum_cons] at ih ⊢
    rw [ih (n + 1)]

theorem pairWeightSum_enumFrom (l : List OutputGroup) :
    ∀ n, pairWeightSum (l.enumFrom n) = totalWeight l := by
  induction l with
  | nil => intro n; simp [pairWeightSum, totalWeight]
  | cons hd tl ih =>
    intro n
    simp only [List.enumFrom, pairWeightSum, totalWeight, List.map_cons, List.sum_cons] at ih ⊢
    rw [ih (n + 1)]

theorem pairValueSum_sorted (inputs : List OutputGroup)
    (le : Nat × OutputGroup → Nat × OutputGroup → Bool) :
    pairValueSum (stableSort le inputs.enum) = totalValue inputs := by
  rw [pairValueSum_perm (stableSort_perm le inputs.enum)]
  exact pairValueSum_enumFrom inputs 0

theorem pairWeightSum_sorted (inputs : List OutputGroup)
    (le : Nat × OutputGroup → Nat × OutputGroup → Bool) :
    pairWeightSum (stableSort le inputs.enum) = totalWeight inputs := by
  rw [pairWeightSum_perm (stableSort_perm le inputs.enum)]
  exact pairWeightSum_enumFrom inputs 0

theorem pairValueSum_take_drop (l : List (Nat × OutputGroup)) (n : Nat) :
    pairValueSum (l.take n) + pairValueSum (l.drop n) = pairValueSum l := by
  conv_rhs => rw [← List.take_append_drop n l]
  simp [pairValueSum]

theorem pairWeightSum_take_drop (l : List (Nat × OutputGroup)) (n : Nat) :
    pairWeightSum (l.take n) + pairWeightSum (l.drop n) = pairWeightSum l := by
  conv_rhs => rw [← List.take_append_drop n l]
  simp [pairWeightSum]

theorem pairValueSum_reverse (l : List (Nat × OutputGroup)) :
    pairValueSum l.reverse = pairValueSum l :=
  pairValueSum_perm (List.reverse_perm l)

theorem pairWeightSum_reverse (l : List (Nat × OutputGroup)) :
    pairWeightSum l.reverse = pairWeightSum l :=
  pairWeightSum_perm (List.reverse_perm l)

theorem rawSum_nil (inputs : List OutputGroup) : rawSum inputs [] = 0 := rfl

theorem weightSum_nil (inputs : List OutputGroup) : weightSum inputs [] = 0 := rfl

/-- **C7.** If `select_coin_lowestlarger` returns `Ok` then the accumulated
raw value of the selected inputs is at least
`target_value + min_change_value + max(fee(base_weight), min_absolute_fee)`
plus the fee of the accumulated weight; and if even the total raw value of
all inputs stays below that target (so accumulation can never reach the
required value), it returns `InsufficientFunds` (under the no-overflow side
conditions that make the checked sums succeed). -/
theorem C7_lowestlarger (inputs : List OutputGroup) (options : CoinSelectionOpt) :
    (∀ out, select_coin_lowestlarger inputs options = .ok out →
      options.target_value + options.min_change_value +
        max (feeVal options.base_weight options.target_feerate) options.min_absolute_fee +
        feeVal (weightSum inputs out.selected_inputs) options.target_feerate
        ≤ rawSum inputs out.selected_inputs) ∧
    (validRate options.target_feerate →
      totalValue inputs <
        options.target_value + options.min_change_value +
          max (feeVal options.base_weight options.target_feerate) options.min_absolute_fee →
      options.target_value + options.min_change_value +
          max (feeVal options.base_weight options.target_feerate) options.min_absolute_fee +
          (feeVal (totalWeight inputs) options.target_feerate + options.min_absolute_fee)
        < 2 ^ 64 →
      totalWeight inputs < 2 ^ 64 →
      select_coin_lowestlarger inputs options = .error .InsufficientFunds) := by
  constructor
  · intro out h
    unfold select_coin_lowestlarger at h
    rw [except_bind_ok] at h
    obtain ⟨bf, hbf, h⟩ := h
    have hvr : validRate options.target_feerate := validRate_of_fee_ok hbf
    have hbfv : bf = feeVal options.base_weight options.target_feerate := fee_ok_eq hbf
    rw [except_bind_ok] at h
    obtain ⟨s1, hs1, h⟩ := h
    rw [except_bind_ok] at h
    obtain ⟨target, htarget, h⟩ := h
    have hs1v : s1 = options.target_value + options.min_change_value := sum_ok hs1
    have htv : target = s1 + max bf options.min_absolute_fee := sum_ok htarget
    simp only at h
    rw [except_bind_ok] at h
    obtain ⟨r1, hr1, h⟩ := h
    rw [except_bind_ok] at h
    obtain ⟨thr1v, hthr1, h⟩ := h
    have hspec1 := accumulate_spec inputs hr1
      (fun p hp => stableSort_entOk (List.mem_of_mem_take (List.mem_reverse.mp hp)))
      (rawSum_nil inputs).symm (weightSum_nil inputs).symm (feeVal_zero hvr).symm hvr
    obtain ⟨-, hv1, hw1, hf1, -, -⟩ := hspec1
    have htail : ∀ r2 : Bool × Nat × Nat × Nat × List Nat,
        r2.2.1 = rawSum inputs r2.2.2.2.2 →
        r2.2.2.1 = weightSum inputs r2.2.2.2.2 →
        r2.2.2.2.1 = feeVal r2.2.2.1 options.target_feerate →
        ∀ thr2v, sum target r2.2.2.2.1 = .ok thr2v →
        (if r2.2.1 < thr2v then (.error .InsufficientFunds : Except SelectionError SelectionOutput)
          else .ok { selected_inputs := r2.2.2.2.2
                     waste := calculate_waste options r2.2.1 r2.2.2.1 r2.2.2.2.1 }) = .ok out →
        options.target_value + options.min_change_value +
          max (feeVal options.base_weight options.target_feerate) options.min_absolute_fee +
          feeVal (weightSum inputs out.selected_inputs) options.target_feerate
          ≤ rawSum inputs out.selected_inputs := by
      intro r2 hv2 hw2 hf2 thr2v hthr2 h
      have hthr2v : thr2v = target + r2.2.2.2.1 := sum_ok hthr2
      by_cases hfin : r2.2.1 < thr2v
      · rw [if_pos hfin] at h
        exact absurd h (by simp)
      · rw [if_neg hfin] at h
        have hout : out.selected_inputs = r2.2.2.2.2 := by
          have := Except.ok.inj h
          rw [← this]
        rw [hout, ← hv2, ← hw2, ← hf2]
        omega
    by_cases hc : r1.2.1 < thr1v
    · rw [if_pos hc] at h
      rw [except_bind_ok] at h
      obtain ⟨r2, hr2, h⟩ := h
      have hspec2 := accumulate_spec inputs hr2
        (fun p hp => stableSort_entOk (List.mem_of_mem_drop hp))
        hv1 hw1 hf1 hvr
      obtain ⟨-, hv2, hw2, hf2, -, -⟩ := hspec2
      rw [except_bind_ok] at h
      obtain ⟨thr2v, hthr2, h⟩ := h
      exact htail r2 hv2 hw2 (hw2 ▸ hf2) thr2v hthr2 h
    · rw [if_neg hc] at h
      rw [except_bind_ok] at h
      obtain ⟨r2, hpure, h⟩ := h
      have hr12 : r1 = r2 := by
        simpa [pure, Except.pure] using hpure
      subst hr12
      rw [except_bind_ok] at h
      obtain ⟨thr2v, hthr2, h⟩ := h
      exact htail r1 hv1 hw1 (hw1 ▸ hf1) thr2v hthr2 h
  · intro hvr hlow h64 h64w
    have hbf : calculate_fee options.base_weight options.target_feerate
        = .ok (feeVal options.base_weight options.target_feerate) :=
      calculate_fee_eq_ok _ hvr
    have hs1 : sum options.target_value options.min_change_value
        = .ok (options.target_value + options.min_change_value) := sum_eq_ok (by omega)
    have hs2 : sum (options.target_value + options.min_change_value)
        (max (feeVal options.base_weight options.target_feerate) options.min_absolute_fee)
        = .ok (options.target_value + options.min_change_value +
            max (feeVal options.base_weight options.target_feerate) options.min_absolute_fee) :=
      sum_eq_ok (by omega)
    unfold select_coin_lowestlarger
    rw [hbf, except_ok_bind, hs1, except_ok_bind, hs2, except_ok_bind]
    simp only
    generalize hS : stableSort (llSortLe options.target_feerate) inputs.enum = S
    have hpvs := pairValueSum_sorted inputs (llSortLe options.target_feerate)
    have hpws := pairWeightSum_sorted inputs (llSortLe options.target_feerate)
    rw [hS] at hpvs hpws
    have htkv : ∀ n, pairValueSum ((S.take n).reverse) + pairValueSum (S.drop n)
        = totalValue inputs := by
      intro n
      rw [pairValueSum_reverse, pairValueSum_take_drop, hpvs]
    have htkw : ∀ n, pairWeightSum ((S.take n).reverse) + pairWeightSum (S.drop n)
        = totalWeight inputs := by
      intro n
      rw [pairWeightSum_reverse, pairWeightSum_take_drop, hpws]
    have A1 : ∀ n, 0 + pairValueSum ((S.take n).reverse) < 2 ^ 64 := by
      intro n; have := htkv n; omega
    have A2 : ∀ n, 0 + pairWeightSum ((S.take n).reverse) < 2 ^ 64 := by
      intro n; have := htkw n; omega
    have A3 : ∀ n g, g ≤ feeVal (0 + pairWeightSum ((S.take n).reverse)) options.target_feerate →
        ∃ t, sum (options.target_value + options.min_change_value +
          max (feeVal options.base_weight options.target_feerate) options.min_absolute_fee) g
          = .ok t ∧
          options.target_value + options.min_change_value +
            max (feeVal options.base_weight options.target_feerate) options.min_absolute_fee ≤ t := by
      intro n g hg
      have h1 : 0 + pairWeightSum ((S.take n).reverse) ≤ totalWeight inputs := by
        have := htkw n; omega
      have h2 : g ≤ feeVal (totalWeight inputs) options.target_feerate :=
        le_trans hg (feeVal_mono h1)
      exact ⟨_, sum_eq_ok (by omega), by omega⟩
    have A4 : ∀ n, 0 + pairValueSum ((S.take n).reverse) <
        options.target_value + options.min_change_value +
          max (feeVal options.base_weight options.target_feerate) options.min_absolute_fee := by
      intro n; have := htkv n; omega
    rw [accumulate_below hvr (A1 _) (A2 _) (A3 _) (A4 _) (feeVal_zero hvr).symm, except_ok_bind]
    simp only
    have B1 : ∀ n, sum (options.target_value + options.min_change_value +
          max (feeVal options.base_weight options.target_feerate) options.min_absolute_fee)
        (feeVal (0 + pairWeightSum ((S.take n).reverse)) options.target_feerate)
        = .ok (options.target_value + options.min_change_value +
          max (feeVal options.base_weight options.target_feerate) options.min_absolute_fee +
          feeVal (0 + pairWeightSum ((S.take n).reverse)) options.target_feerate) := by
      intro n
      have h1 : 0 + pairWeightSum ((S.take n).reverse) ≤ totalWeight inputs := by
        have := htkw n; omega
      have h2 : feeVal (0 + pairWeightSum ((S.take n).reverse)) options.target_feerate ≤
          feeVal (totalWeight inputs) options.target_feerate := feeVal_mono h1
      exact sum_eq_ok (by omega)
    rw [B1 _, except_ok_bind]
    have C1 : ∀ n, 0 + pairValueSum ((S.take n).reverse) <
        options.target_value + options.min_change_value +
          max (feeVal options.base_weight options.target_feerate) options.min_absolute_fee +
          feeVal (0 + pairWeightSum ((S.take n).reverse)) options.target_feerate := by
      intro n; have := A4 n; omega
    rw [if_pos (C1 _)]
    have D1 : ∀ n, 0 + pairValueSum ((S.take n).reverse) + pairValueSum (S.drop n) < 2 ^ 64 := by
      intro n; have := htkv n; omega
    have D2 : ∀ n, 0 + pairWeightSum ((S.take n).reverse) + pairWeightSum (S.drop n) < 2 ^ 64 := by
      intro n; have := htkw n; omega
    have D3 : ∀ n g, g ≤ feeVal (0 + pairWeightSum ((S.take n).reverse) + pairWeightSum (S.drop n))
          options.target_feerate →
        ∃ t, sum (options.target_value + options.min_change_value +
          max (feeVal options.base_weight options.target_feerate) options.min_absolute_fee)
          (max g options.min_absolute_fee) = .ok t ∧
          options.target_value + options.min_change_value +
            max (feeVal options.base_weight options.target_feerate) options.min_absolute_fee ≤ t := by
      intro n g hg
      have e : 0 + pairWeightSum ((S.take n).reverse) + pairWeightSum (S.drop n)
          = totalWeight inputs := by
        have := htkw n; omega
      rw [e] at hg
      exact ⟨_, sum_eq_ok (by omega), by omega⟩
    have D4 : ∀ n, 0 + pairValueSum ((S.take n).reverse) + pairValueSum (S.drop n) <
        options.target_value + options.min_change_value +
          max (feeVal options.base_weight options.target_feerate) options.min_absolute_fee := by
      intro n; have := htkv n; omega
    rw [accumulate_below hvr (D1 _) (D2 _) (D3 _) (D4 _) rfl, except_ok_bind]
    have E1 : ∀ n, sum (options.target_value + options.min_change_value +
          max (feeVal options.base_weight options.target_feerate) options.min_absolute_fee)
        (feeVal (0 + pairWeightSum ((S.take n).reverse) + pairWeightSum (S.drop n))
          options.target_feerate)
        = .ok (options.target_value + options.min_change_value +
          max (feeVal options.base_weight options.target_feerate) options.min_absolute_fee +
          feeVal (0 + pairWeightSum ((S.take n).reverse) + pairWeightSum (S.drop n))
            options.target_feerate) := by
      intro n
      have e : 0 + pairWeightSum ((S.take n).reverse) + pairWeightSum (S.drop n)
          = totalWeight inputs := by
        have := htkw n; omega
      rw [e]
      exact sum_eq_ok (by omega)
    rw [E1 _, except_ok_bind]
    have F1 : ∀ n, 0 + pairValueSum ((S.take n).reverse) + pairValueSum (S.drop n) <
        options.target_value + options.min_change_value +
          max (feeVal options.base_weight options.target_feerate) options.min_absolute_fee +
          feeVal (0 + pairWeightSum ((S.take n).reverse) + pairWeightSum (S.drop n))
            options.target_feerate := by
      intro n; have := D4 n; omega
    rw [if_pos (F1 _)]

theorem getD_mem {α : Type} {l : List α} {i : Nat} {d : α} (h : i < l.length) :
    l.getD i d ∈ l := by
  rw [List.getD_eq_getElem?_getD, List.getElem?_eq_getElem h]
  exact List.getElem_mem h

/-- What the `leastchange` preparation guarantees about every entry of
`filtered`: a valid index whose effective value is the positive net value
recorded, with the matching weight. -/
def FiltOk (inputs : List OutputGroup) (fr : Q) (x : Nat × Nat × Nat) : Prop :=
  x.1 < inputs.length ∧
  effective_value (inputs.getD x.1 default) fr = .ok x.2.1 ∧
  0 < x.2.1 ∧
  (inputs.getD x.1 default).weight = x.2.2

theorem effSum_append (inputs : List OutputGroup) (fr : Q) (s t : List Nat) :
    effSum inputs fr (s ++ t) = effSum inputs fr s + effSum inputs fr t := by
  simp [effSum]

theorem effSum_single_of_filtOk {inputs : List OutputGroup} {fr : Q}
    {x : Nat × Nat × Nat} (h : FiltOk inputs fr x) :
    effSum inputs fr [x.1] = x.2.1 := by
  simp only [effSum, List.map_cons, List.map_nil, List.sum_cons, List.sum_nil, Nat.add_zero]
  rw [h.2.1]
  rfl

theorem weightSum_single_of_filtOk {inputs : List OutputGroup}
    {fr : Q} {x : Nat × Nat × Nat} (h : FiltOk inputs fr x) :
    weightSum inputs [x.1] = x.2.2 := by
  simp only [weightSum, List.map_cons, List.map_nil, List.sum_cons, List.sum_nil, Nat.add_zero]
  exact h.2.2.2

/-- The invariant carried by every state on the `leastchange` DFS stack. -/
def StInv (inputs : List OutputGroup) (fr : Q) (filtered : List (Nat × Nat × Nat))
    (st : BnBState) : Prop :=
  st.current_eff_value = effSum inputs fr st.current_selection ∧
  st.current_weight = weightSum inputs st.current_selection ∧
  st.current_selection.Nodup ∧
  (∀ i ∈ st.current_selection, i < inputs.length) ∧
  (∀ i ∈ st.current_selection, i ∉ (filtered.drop st.index).map (fun x => x.1))

/-- A selection the `leastchange` search may record: well-formed indices
whose effective-value total meets the weight-recomputed required value. -/
def LcGood (inputs : List OutputGroup) (opts : CoinSelectionOpt) (sel : List Nat) : Prop :=
  sel.Nodup ∧ (∀ i ∈ sel, i < inputs.length) ∧
  opts.target_value +
    max (exceptD 0 (calculate_fee (weightSum inputs sel) opts.target_feerate))
      opts.min_absolute_fee +
    opts.min_change_value ≤ effSum inputs opts.target_feerate sel

/-- Any `best` the `leastchange` DFS loop produces from a stack of
invariant-satisfying states is either the incoming `best` or a recorded
good selection. -/
theorem lcLoop_inv {inputs : List OutputGroup} (opts : CoinSelectionOpt)
    {filtered : List (Nat × Nat × Nat)} (target : Nat)
    (hfilt : ∀ x ∈ filtered, FiltOk inputs opts.target_feerate x)
    (hnd : (filtered.map (fun x => x.1)).Nodup) :
    ∀ fuel (stack : List BnBState) (best : Option (List Nat × Nat × Nat)),
    (∀ st ∈ stack, StInv inputs opts.target_feerate filtered st) →
    (∀ sel ch cnt, best = some (sel, ch, cnt) → LcGood inputs opts sel) →
    (∀ sel ch cnt, lcLoop opts filtered target fuel stack best = some (sel, ch, cnt) →
      LcGood inputs opts sel) := by
  intro fuel
  induction fuel with
  | zero => intro stack best _ hbest; exact hbest
  | succ fuel ih =>
    intro stack best hstack hbest
    match stack with
    | [] => exact hbest
    | state :: rest =>
      have hst : StInv inputs opts.target_feerate filtered state := hstack _ (by simp)
      have hrest : ∀ st ∈ rest, StInv inputs opts.target_feerate filtered st :=
        fun st h => hstack st (by simp [h])
      unfold lcLoop
      by_cases hidx : filtered.length ≤ state.index
      · rw [if_pos hidx]
        exact ih rest best hrest hbest
      · rw [if_neg hidx]
        by_cases hprune :
            state.current_eff_value + suffixNet filtered state.index < target
        · rw [if_pos hprune]
          exact ih rest best hrest hbest
        · rw [if_neg hprune]
          simp only
          have hlt : state.index < filtered.length := lt_of_not_le hidx
          have hentry : filtered.getD state.index (0, 0, 0) ∈ filtered := getD_mem hlt
          have hfo := hfilt _ hentry
          -- the head of the dropped suffix is exactly the current entry
          have hdropeq : filtered.drop state.index =
              filtered.getD state.index (0, 0, 0) :: filtered.drop (state.index + 1) := by
            rw [List.getD_eq_getElem?_getD, List.getElem?_eq_getElem hlt]
            exact List.drop_eq_getElem_cons hlt
          have hsubdrop : ∀ i : Nat,
              i ∈ (filtered.drop (state.index + 1)).map (fun x => x.1) →
              i ∈ (filtered.drop state.index).map (fun x => x.1) := by
            intro i hi
            rw [hdropeq]
            simp only [List.map_cons, List.mem_cons]
            exact Or.inr hi
          have hnotin : (filtered.getD state.index (0, 0, 0)).1 ∉ state.current_selection := by
            intro hmem
            exact (hst.2.2.2.2 _ hmem) (by
              rw [hdropeq]
              simp)
          have hnotin1 : (filtered.getD state.index (0, 0, 0)).1 ∉
              (filtered.drop (state.index + 1)).map (fun x => x.1) := by
            have : ((filtered.drop state.index).map (fun x => x.1)).Nodup :=
              ((filtered.drop_sublist state.index).map (fun x => x.1)).nodup hnd
            rw [hdropeq] at this
            simp only [List.map_cons, List.nodup_cons] at this
            exact this.1
          have hskip : StInv inputs opts.target_feerate filtered
              { index := state.index + 1
                current_eff_value := state.current_eff_value
                current_selection := state.current_selection
                current_count := state.current_count
                current_weight := state.current_weight } := by
            refine ⟨hst.1, hst.2.1, hst.2.2.1, hst.2.2.2.1, ?_⟩
            intro i hi hmem
            exact (hst.2.2.2.2 i hi) (hsubdrop i hmem)
          have heff : state.current_eff_value + (filtered.getD state.index (0, 0, 0)).2.1 =
              effSum inputs opts.target_feerate
                (state.current_selection ++ [(filtered.getD state.index (0, 0, 0)).1]) := by
            rw [effSum_append, effSum_single_of_filtOk hfo, hst.1]
          have hwei : state.current_weight + (filtered.getD state.index (0, 0, 0)).2.2 =
              weightSum inputs
                (state.current_selection ++ [(filtered.getD state.index (0, 0, 0)).1]) := by
            rw [weightSum_append, weightSum_single_of_filtOk hfo, hst.2.1]
          have hndsel : (state.current_selection ++
              [(filtered.getD state.index (0, 0, 0)).1]).Nodup := by
            rw [List.nodup_append]
            exact ⟨hst.2.2.1, List.nodup_singleton _, by
              intro i hi
              simp only [List.mem_singleton]
              intro he
              exact hnotin (he ▸ hi)⟩
          have hbnd : ∀ i ∈ state.current_selection ++
              [(filtered.getD state.index (0, 0, 0)).1], i < inputs.length := by
            intro i hi
            rcases List.mem_append.mp hi with h | h
            · exact hst.2.2.2.1 i h
            · rw [List.mem_singleton] at h
              exact h ▸ hfo.1
          by_cases hadm : opts.target_value +
              max (exceptD 0 (calculate_fee
                (state.current_weight + (filtered.getD state.index (0, 0, 0)).2.2)
                opts.target_feerate)) opts.min_absolute_fee +
              opts.min_change_value ≤
              state.current_eff_value + (filtered.getD state.index (0, 0, 0)).2.1
          · rw [if_pos hadm]
            refine ih _ _ (fun st h => ?_) (fun sel ch cnt hsome => ?_)
            · rcases List.mem_cons.mp h with h | h
              · exact h ▸ hskip
              · exact hrest st h
            · split at hsome
              · cases hsome
                refine ⟨hndsel, hbnd, ?_⟩
                rw [← heff, ← hwei]
                exact hadm
              · exact hbest sel ch cnt hsome
          · rw [if_neg hadm]
            refine ih _ _ (fun st h => ?_) hbest
            rcases List.mem_cons.mp h with h | h
            · subst h
              exact ⟨heff.symm ▸ rfl, hwei.symm ▸ rfl, hndsel, hbnd, by
                intro i hi hmem
                rcases List.mem_append.mp hi with h | h
                · exact (hst.2.2.2.2 i h) (hsubdrop i hmem)
                · rw [List.mem_singleton] at h
                  exact hnotin1 (h ▸ hmem)⟩
            · rcases List.mem_cons.mp h with h | h
              · exact h ▸ hskip
              · exact hrest st h

theorem lcFilter_fst {fr : Q} {p : Nat × OutputGroup} {x : Nat × Nat × Nat}
    (h : lcFilter fr p = some x) : x.1 = p.1 := by
  unfold lcFilter at h
  rcases he : effective_value p.2 fr with v | v
  · rw [he] at h
    exact absurd h (by simp)
  · rw [he] at h
    simp only at h
    by_cases hv : 0 < v
    · rw [if_pos hv] at h
      cases h
      rfl
    · rw [if_neg hv] at h
      exact absurd h (by simp)

theorem lc_filtered_ok {inputs : List OutputGroup} {fr : Q} {x : Nat × Nat × Nat}
    (hx : x ∈ stableSort byNetDesc (inputs.enum.filterMap (lcFilter fr))) :
    FiltOk inputs fr x := by
  have hx0 : x ∈ inputs.enum.filterMap (lcFilter fr) :=
    (stableSort_perm _ _).mem_iff.mp hx
  obtain ⟨p, hp, hfp⟩ := List.mem_filterMap.mp hx0
  have hent := entOk_of_mem_enum hp
  unfold lcFilter at hfp
  rcases he : effective_value p.2 fr with v | v
  · rw [he] at hfp
    exact absurd hfp (by simp)
  · rw [he] at hfp
    simp only at hfp
    by_cases hv : 0 < v
    · rw [if_pos hv] at hfp
      cases hfp
      exact ⟨hent.1, by rw [hent.2]; exact he, hv, by rw [hent.2]⟩
    · rw [if_neg hv] at hfp
      exact absurd hfp (by simp)

theorem lc_filtered_fst_sublist (fr : Q) :
    ∀ l : List (Nat × OutputGroup),
    ((l.filterMap (lcFilter fr)).map (fun x => x.1)).Sublist (l.map Prod.fst) := by
  intro l
  induction l with
  | nil => simp
  | cons a t ih =>
    rcases hf : lcFilter fr a with _ | x
    · rw [List.filterMap_cons_none hf, List.map_cons]
      exact ih.cons _
    · rw [List.filterMap_cons_some hf, List.map_cons, List.map_cons, lcFilter_fst hf]
      exact ih.cons₂ _

theorem lc_filtered_fst_nodup (inputs : List OutputGroup) (fr : Q) :
    ((stableSort byNetDesc (inputs.enum.filterMap (lcFilter fr))).map
      (fun x => x.1)).Nodup := by
  refine (((stableSort_perm byNetDesc _).map (fun x => x.1)).nodup_iff).mpr ?_
  exact ((lc_filtered_fst_sublist fr inputs.enum).nodup)
    (by simpa using enum_fst_nodup inputs)

/-- **C4.** `select_coin_bnb_leastchange` admits a candidate (and hence can
return `Ok`) only when the selection's summed effective value reaches
`target_value + max(fee(selection weight), min_absolute_fee) +
min_change_value`, the fee being recomputed from the candidate selection's
accumulated weight; and the only error it ever reports is
`InsufficientFunds` (in particular when the search stack empties without a
feasible selection). -/
theorem C4_leastchange_admission (inputs : List OutputGroup) (options : CoinSelectionOpt) :
    (∀ out, select_coin_bnb_leastchange inputs options = .ok out →
      options.target_value +
        max (exceptD 0 (calculate_fee (weightSum inputs out.selected_inputs)
          options.target_feerate)) options.min_absolute_fee +
        options.min_change_value
        ≤ effSum inputs options.target_feerate out.selected_inputs) ∧
    (∀ e, select_coin_bnb_leastchange inputs options = .error e →
      e = .InsufficientFunds) := by
  have hfilt : ∀ x ∈ stableSort byNetDesc (inputs.enum.filterMap
      (lcFilter options.target_feerate)), FiltOk inputs options.target_feerate x :=
    fun x hx => lc_filtered_ok hx
  have hnd := lc_filtered_fst_nodup inputs options.target_feerate
  have hinit : ∀ st ∈ [(⟨0, 0, [], 0, 0⟩ : BnBState)],
      StInv inputs options.target_feerate
        (stableSort byNetDesc (inputs.enum.filterMap (lcFilter options.target_feerate))) st := by
    intro st hst
    rw [List.mem_singleton] at hst
    subst hst
    exact ⟨rfl, rfl, List.nodup_nil, by simp, by simp⟩
  have hgood := lcLoop_inv options (options.target_value + options.min_change_value)
    hfilt hnd
    (3 ^ ((stableSort byNetDesc (inputs.enum.filterMap (lcFilter options.target_feerate))).length + 1))
    _ none hinit (by simp)
  constructor
  · intro out h
    unfold select_coin_bnb_leastchange at h
    simp only at h
    split at h
    · rename_i sel ch cnt heq
      have hlc := hgood sel ch cnt heq
      have hout : out.selected_inputs = sel := by
        have := Except.ok.inj h
        rw [← this]
      rw [hout]
      exact hlc.2.2
    · exact absurd h (by simp)
  · intro e h
    unfold select_coin_bnb_leastchange at h
    simp only at h
    split at h
    · exact absurd h (by simp)
    · exact (Except.error.inj h).symm

/-- The per-input effective value used inside the `bnb` recursion
(`bnb.rs` lines 89-92): value minus the fee, `min_absolute_fee` standing in
when the fee computation fails. -/
def bnbEff (opts : CoinSelectionOpt) (g : OutputGroup) : Nat :=
  g.value - exceptD opts.min_absolute_fee (calculate_fee g.weight opts.target_feerate)

/-- The `acc_value` of a `bnb` node, recomputed from its selection. -/
def bnbAccSum (inputs : List OutputGroup) (opts : CoinSelectionOpt) (sel : List Nat) : Nat :=
  (sel.map (fun i => bnbEff opts (inputs.getD i default))).sum

theorem bnbAccSum_append (inputs : List OutputGroup) (opts : CoinSelectionOpt)
    (s t : List Nat) :
    bnbAccSum inputs opts (s ++ t) = bnbAccSum inputs opts s + bnbAccSum inputs opts t := by
  simp [bnbAccSum]

theorem bnbAccSum_single {inputs : List OutputGroup} {opts : CoinSelectionOpt}
    {p : Nat × OutputGroup} (h : EntOk inputs p) :
    bnbAccSum inputs opts [p.1] = bnbEff opts p.2 := by
  simp only [bnbAccSum, List.map_cons, List.map_nil, List.sum_cons, List.sum_nil, Nat.add_zero]
  rw [h.2]

/-- A selection the `bnb` search may record: well-formed indices whose
node-level effective value (accumulated value minus the fee of the
accumulated weight) lies in the match window. -/
def BnbGood (inputs : List OutputGroup) (opts : CoinSelectionOpt)
    (tfm rng : Nat) (sel : List Nat) : Prop :=
  sel.Nodup ∧ (∀ i ∈ sel, i < inputs.length) ∧
  tfm ≤ bnbAccSum inputs opts sel -
      exceptD opts.min_absolute_fee
        (calculate_fee (weightSum inputs sel) opts.target_feerate) ∧
  bnbAccSum inputs opts sel -
      exceptD opts.min_absolute_fee
        (calculate_fee (weightSum inputs sel) opts.target_feerate) ≤ tfm + rng

theorem bnb_const (ctx : BnbContext) (selected : List Nat) (accValue accWeight : Nat) :
    ∀ rest, (bnb ctx selected accValue accWeight rest).options = ctx.options ∧
      (bnb ctx selected accValue accWeight rest).target_for_match = ctx.target_for_match ∧
      (bnb ctx selected accValue accWeight rest).match_range = ctx.match_range := by
  intro rest
  induction rest generalizing ctx selected accValue accWeight with
  | nil => exact ⟨rfl, rfl, rfl⟩
  | cons hd tl ih =>
    obtain ⟨index, input⟩ := hd
    unfold bnb
    by_cases ht : ctx.tries = 0
    · rw [if_pos ht]
      exact ⟨rfl, rfl, rfl⟩
    · rw [if_neg ht]
      simp only
      split
      · exact ⟨rfl, rfl, rfl⟩
      · split
        · split
          · exact ⟨rfl, rfl, rfl⟩
          · exact ⟨rfl, rfl, rfl⟩
        · refine ⟨?_, ?_, ?_⟩
          · rw [(ih _ _ _ _).1, (ih _ _ _ _).1]
          · rw [(ih _ _ _ _).2.1, (ih _ _ _ _).2.1]
          · rw [(ih _ _ _ _).2.2, (ih _ _ _ _).2.2]

theorem bnb_inv {inputs : List OutputGroup} {opts : CoinSelectionOpt} :
    ∀ (rest : List (Nat × OutputGroup)) (ctx : BnbContext)
      (selected : List Nat) (accValue accWeight : Nat),
    ctx.options = opts →
    (∀ sel w, ctx.best_solution = some (sel, w) →
      BnbGood inputs opts ctx.target_for_match ctx.match_range sel) →
    accValue = bnbAccSum inputs opts selected →
    accWeight = weightSum inputs selected →
    selected.Nodup →
    (∀ i ∈ selected, i < inputs.length) →
    (∀ p ∈ rest, EntOk inputs p) →
    (rest.map Prod.fst).Nodup →
    (∀ i ∈ selected, i ∉ rest.map Prod.fst) →
    (∀ sel w, (bnb ctx selected accValue accWeight rest).best_solution = some (sel, w) →
      BnbGood inputs opts ctx.target_for_match ctx.match_range sel) := by
  intro rest
  induction rest with
  | nil =>
    intro ctx selected accValue accWeight _ hbest _ _ _ _ _ _ _
    exact hbest
  | cons hd tl ih =>
    intro ctx selected accValue accWeight hopts hbest hv hw hnd hbnd hrest hrnd hdisj
    obtain ⟨index, input⟩ := hd
    have hent : EntOk inputs (index, input) := hrest _ (by simp)
    have hidxtl : index ∉ tl.map Prod.fst := by
      have := hrnd
      simp only [List.map_cons, List.nodup_cons] at this
      exact this.1
    have hidxsel : index ∉ selected := by
      intro hmem
      exact hdisj index hmem (by simp)
    have hrest1 : ∀ p ∈ tl, EntOk inputs p := fun p hp => hrest p (by simp [hp])
    have hrnd1 : (tl.map Prod.fst).Nodup := by
      have := hrnd
      simp only [List.map_cons, List.nodup_cons] at this
      exact this.2
    have hdisj1 : ∀ i ∈ selected, i ∉ tl.map Prod.fst := by
      intro i hi hmem
      exact hdisj i hi (by simp [hmem])
    unfold bnb
    by_cases ht : ctx.tries = 0
    · rw [if_pos ht]
      exact hbest
    · rw [if_neg ht]
      simp only
      split
      · exact hbest
      · rename_i hprune
        split
        · rename_i hrec
          split
          · intro sel w hsome
            simp only at hsome
            have hs := Option.some.inj hsome
            have hsel : selected = sel := congrArg Prod.fst hs
            subst hsel
            refine ⟨hnd, hbnd, ?_, ?_⟩
            · rw [← hv, ← hw, ← hopts]
              exact hrec
            · rw [← hv, ← hw, ← hopts]
              omega
          · exact hbest
        · have hnd1 : (selected ++ [index]).Nodup := by
            rw [List.nodup_append]
            refine ⟨hnd, List.nodup_singleton _, ?_⟩
            intro i hi
            simp only [List.mem_singleton]
            intro he
            exact hidxsel (he ▸ hi)
          have hbnd1 : ∀ i ∈ selected ++ [index], i < inputs.length := by
            intro i hi
            rcases List.mem_append.mp hi with h | h
            · exact hbnd i h
            · rw [List.mem_singleton] at h
              exact h ▸ hent.1
          have hdisjinc : ∀ i ∈ selected ++ [index], i ∉ tl.map Prod.fst := by
            intro i hi
            rcases List.mem_append.mp hi with h | h
            · exact hdisj1 i h
            · rw [List.mem_singleton] at h
              exact h ▸ hidxtl
          have hv1 : accValue +
              (input.value - exceptD ctx.options.min_absolute_fee
                (calculate_fee input.weight ctx.options.target_feerate)) =
              bnbAccSum inputs opts (selected ++ [index]) := by
            rw [bnbAccSum_append, bnbAccSum_single hent, ← hv, hopts]
            rfl
          have hw1 : accWeight + input.weight = weightSum inputs (selected ++ [index]) := by
            rw [weightSum_append, weightSum_single hent, ← hw]
          have hinc := ih { ctx with tries := ctx.tries - 1 } (selected ++ [index]) _ _
            hopts hbest hv1 hw1 hnd1 hbnd1 hrest1 hrnd1 hdisjinc
          have hc2 := bnb_const { ctx with tries := ctx.tries - 1 } (selected ++ [index])
            (accValue + (input.value - exceptD ctx.options.min_absolute_fee
              (calculate_fee input.weight ctx.options.target_feerate)))
            (accWeight + input.weight) tl
          set C2 : BnbContext := bnb { ctx with tries := ctx.tries - 1 } (selected ++ [index])
            (accValue + (input.value - exceptD ctx.options.min_absolute_fee
              (calculate_fee input.weight ctx.options.target_feerate)))
            (accWeight + input.weight) tl with hC2
          have hopts2 : C2.options = opts := by
            rw [hc2.1]
            exact hopts
          have htfm2 : C2.target_for_match = ctx.target_for_match := hc2.2.1
          have hrng2 : C2.match_range = ctx.match_range := hc2.2.2
          have hbest2 : ∀ sel2 w2, C2.best_solution = some (sel2, w2) →
              BnbGood inputs opts C2.target_for_match C2.match_range sel2 := by
            intro sel2 w2 hsome2
            rw [htfm2, hrng2]
            exact hinc sel2 w2 hsome2
          intro sel w hsome
          have hres := ih C2 selected accValue accWeight hopts2 hbest2 hv hw hnd hbnd
            hrest1 hrnd1 hdisj1 sel w hsome
          rw [htfm2, hrng2] at hres
          exact hres

/-- Inversion for a successful `select_coin_bnb` run: the feerate is valid
and the returned selection was recorded by the search, hence good. -/
theorem bnb_ok_good {inputs : List OutputGroup} {options : CoinSelectionOpt} :
    ∀ out, select_coin_bnb inputs options = .ok out →
    validRate options.target_feerate ∧
    BnbGood inputs options
      (options.target_value + options.min_change_value +
        max (feeVal options.base_weight options.target_feerate) options.min_absolute_fee)
      (feeVal options.avg_input_weight options.target_feerate +
        feeVal options.avg_output_weight options.target_feerate)
      out.selected_inputs := by
  intro out h
  unfold select_coin_bnb at h
  rw [except_bind_ok] at h
  obtain ⟨cpi, hcpi, h⟩ := h
  have hvr : validRate options.target_feerate := validRate_of_fee_ok hcpi
  have hcpiv : cpi = feeVal options.avg_input_weight options.target_feerate := fee_ok_eq hcpi
  rw [except_bind_ok] at h
  obtain ⟨cpo, hcpo, h⟩ := h
  have hcpov : cpo = feeVal options.avg_output_weight options.target_feerate := fee_ok_eq hcpo
  rw [except_bind_ok] at h
  obtain ⟨bf, hbf, h⟩ := h
  have hbfv : bf = feeVal options.base_weight options.target_feerate := fee_ok_eq hbf
  subst hcpiv hcpov hbfv
  simp only at h
  refine ⟨hvr, ?_⟩
  split at h
  · rename_i sel waste heq
    have hout : out.selected_inputs = sel := by
      have := Except.ok.inj h
      rw [← this]
    rw [hout]
    exact bnb_inv (stableSort byValueLe inputs.enum) _ [] 0 0 rfl (by simp) rfl rfl
      List.nodup_nil (by simp) (fun p hp => stableSort_entOk hp)
      (stableSort_enum_fst_nodup inputs byValueLe) (by simp) sel waste heq
  · exact absurd h (by simp)

theorem bnbEff_eq {opts : CoinSelectionOpt} (hvr : validRate opts.target_feerate)
    (g : OutputGroup) :
    bnbEff opts g = exceptD 0 (effective_value g opts.target_feerate) := by
  unfold bnbEff effective_value
  rw [calculate_fee_eq_ok _ hvr]
  rfl

theorem bnbAccSum_eq_effSum {inputs : List OutputGroup} {opts : CoinSelectionOpt}
    (hvr : validRate opts.target_feerate) (sel : List Nat) :
    bnbAccSum inputs opts sel = effSum inputs opts.target_feerate sel := by
  unfold bnbAccSum effSum
  congr 1
  exact List.map_congr_left (fun i _ => bnbEff_eq hvr _)

/-- **C3 (amended).**  If `select_coin_bnb` returns `Ok`, what lies in the
closed window `[target_for_match, target_for_match + match_range]` is not
the pre-fee (raw) value sum of the selection but the node value the search
tested: the sum of the selected inputs' effective values minus, again, the
fee of the selection's total weight (saturating).  And with a valid feerate
the only error `select_coin_bnb` reports is `NoSolutionFound`. -/
theorem C3_bnb_window_amended (inputs : List OutputGroup) (options : CoinSelectionOpt) :
    (∀ out, select_coin_bnb inputs options = .ok out →
      options.target_value + options.min_change_value +
          max (feeVal options.base_weight options.target_feerate) options.min_absolute_fee
        ≤ effSum inputs options.target_feerate out.selected_inputs -
            feeVal (weightSum inputs out.selected_inputs) options.target_feerate ∧
      effSum inputs options.target_feerate out.selected_inputs -
          feeVal (weightSum inputs out.selected_inputs) options.target_feerate
        ≤ options.target_value + options.min_change_value +
            max (feeVal options.base_weight options.target_feerate) options.min_absolute_fee +
          (feeVal options.avg_input_weight options.target_feerate +
            feeVal options.avg_output_weight options.target_feerate)) ∧
    (∀ e, select_coin_bnb inputs options = .error e → validRate options.target_feerate →
      e = .NoSolutionFound) := by
  constructor
  · intro out h
    obtain ⟨hvr, hgood⟩ := bnb_ok_good out h
    obtain ⟨-, -, h1, h2⟩ := hgood
    rw [bnbAccSum_eq_effSum hvr, calculate_fee_eq_ok _ hvr] at h1 h2
    exact ⟨h1, h2⟩
  · intro e h hvr
    unfold select_coin_bnb at h
    rw [calculate_fee_eq_ok _ hvr, except_ok_bind, calculate_fee_eq_ok _ hvr, except_ok_bind,
      calculate_fee_eq_ok _ hvr, except_ok_bind] at h
    simp only at h
    split at h
    · exact absurd h (by simp)
    · exact (Except.error.inj h).symm

/-- At the root of a non-empty search with `target_for_match = 0`, the very
first node is an admissible solution: the empty selection is recorded and
the recursion returns at once. -/
theorem bnb_zero_target (opts : CoinSelectionOpt) (ctx : BnbContext)
    (hctxopts : ctx.options = opts) (htfm : ctx.target_for_match = 0)
    (htries : ctx.tries ≠ 0) (hb : ctx.best_solution = none)
    (hvr : validRate opts.target_feerate) (p : Nat × OutputGroup)
    (rest : List (Nat × OutputGroup)) :
    (bnb ctx [] 0 0 (p :: rest)).best_solution =
      some ([], calculate_waste opts 0 0 0) := by
  obtain ⟨index, input⟩ := p
  unfold bnb
  rw [if_neg htries]
  simp only
  have hfee : exceptD ctx.options.min_absolute_fee
      (calculate_fee 0 ctx.options.target_feerate) = 0 := by
    rw [hctxopts, calculate_fee_eq_ok _ hvr]
    show feeVal 0 opts.target_feerate = 0
    exact feeVal_zero hvr
  have h1 : ¬ (ctx.target_for_match + ctx.match_range <
      0 - exceptD ctx.options.min_absolute_fee
        (calculate_fee 0 ctx.options.target_feerate)) := by
    rw [hfee]
    omega
  have h2 : ctx.target_for_match ≤
      0 - exceptD ctx.options.min_absolute_fee
        (calculate_fee 0 ctx.options.target_feerate) := by
    rw [hfee, htfm]
  rw [if_neg h1, if_pos h2, hb]
  simp only [hctxopts, if_true]
  have hfee2 : exceptD opts.min_absolute_fee (calculate_fee 0 opts.target_feerate) = 0 := by
    rw [calculate_fee_eq_ok _ hvr]
    show feeVal 0 opts.target_feerate = 0
    exact feeVal_zero hvr
  rw [hfee2]

/-- **C10.** With a non-empty input slice and options making
`target_for_match` zero (`target_value = 0`, `min_change_value = 0`,
`min_absolute_fee = 0`, base-weight fee 0), `select_coin_bnb` called
directly returns `Ok` with the empty selection: the per-algorithm entry
points perform no `NonPositiveTarget` check — that check lives only in
`select_coin`, which here returns `NonPositiveTarget` instead. -/
theorem C10_zero_target_bnb (inputs : List OutputGroup) (options : CoinSelectionOpt)
    (hne : inputs ≠ [])
    (h0 : options.target_value = 0)
    (hmc : options.min_change_value = 0)
    (hma : options.min_absolute_fee = 0)
    (hbf : calculate_fee options.base_weight options.target_feerate = .ok 0) :
    select_coin_bnb inputs options = .ok ⟨[], calculate_waste options 0 0 0⟩ ∧
    select_coin inputs options = .error .NonPositiveTarget := by
  have hvr := validRate_of_fee_ok hbf
  constructor
  · unfold select_coin_bnb
    rw [calculate_fee_eq_ok options.avg_input_weight hvr, except_ok_bind,
        calculate_fee_eq_ok options.avg_output_weight hvr, except_ok_bind,
        hbf, except_ok_bind]
    simp only
    obtain ⟨p, rest, hS⟩ : ∃ p rest, stableSort byValueLe inputs.enum = p :: rest := by
      rcases hS : stableSort byValueLe inputs.enum with _ | ⟨p, rest⟩
      · exfalso
        have hlen := (stableSort_perm byValueLe inputs.enum).length_eq
        rw [hS] at hlen
        simp only [List.length_nil, List.enum_length] at hlen
        exact hne (List.length_eq_zero.mp hlen.symm)
      · exact ⟨p, rest, rfl⟩
    rw [hS]
    have hz := bnb_zero_target options
      { target_for_match := options.target_value + options.min_change_value +
          max 0 options.min_absolute_fee
        match_range := feeVal options.avg_input_weight options.target_feerate +
          feeVal options.avg_output_weight options.target_feerate
        options := options
        tries := 1000000
        best_solution := none }
      rfl (by rw [h0, hmc, hma]; rfl) (by show (1000000 : Nat) ≠ 0; decide) rfl hvr p rest
    rw [hz]
  · unfold select_coin
    rw [if_pos h0]

/-- The lexicographic order the meta-selector's comparator realises on
results whose waste fractions share the denominator `D` (within one
`select_coin` call they all do): change, then — unless the waste is
non-finite (`D = 0`), when the NaN fallback makes it a tie — the waste
numerator, then the selection size. -/
def keyLe (D : Nat) (a b : SelectionOutput × Nat) : Prop :=
  a.2 < b.2 ∨ (a.2 = b.2 ∧
    ((D ≠ 0 ∧ a.1.waste.num < b.1.waste.num) ∨
      ((D = 0 ∨ a.1.waste.num = b.1.waste.num) ∧
        a.1.selected_inputs.length ≤ b.1.selected_inputs.length)))

theorem resultCmp_ne_gt_iff {D : Nat} {a b : SelectionOutput × Nat}
    (ha : a.1.waste.den = D) (hb : b.1.waste.den = D) :
    (resultCmp a b ≠ .gt) ↔ keyLe D a b := by
  have hq : cmpQ a.1.waste b.1.waste =
      (if D = 0 then Ordering.eq
       else if a.1.waste.num < b.1.waste.num then .lt
       else if b.1.waste.num < a.1.waste.num then .gt else .eq) := by
    unfold cmpQ Q.blt
    rw [ha, hb]
    by_cases hD : D = 0
    · subst hD
      simp
    · have hD0 : (0 : Int) < (D : Int) := by
        exact_mod_cast Nat.pos_of_ne_zero hD
      simp only [ne_eq, hD, not_false_eq_true, if_neg hD, mul_lt_mul_right hD0]
      simp
  unfold resultCmp keyLe
  rw [hq]
  unfold cmpNat
  by_cases hD : D = 0 <;>
    split_ifs <;>
    simp_all [Ordering.then] <;>
    omega

theorem keyLe_refl (D : Nat) (a : SelectionOutput × Nat) : keyLe D a a := by
  unfold keyLe
  omega

theorem keyLe_total (D : Nat) (a b : SelectionOutput × Nat) :
    keyLe D a b ∨ keyLe D b a := by
  unfold keyLe
  omega

theorem keyLe_trans {D : Nat} {a b c : SelectionOutput × Nat}
    (h1 : keyLe D a b) (h2 : keyLe D b c) : keyLe D a c := by
  unfold keyLe at h1 h2 ⊢
  omega

/-- Rust's `min_by` returns an element of the list that the comparator never
ranks strictly above another element, as long as the comparator restricted
to the list is a total preorder (here phrased through `keyLe`). -/
theorem minBy_spec {D : Nat} :
    ∀ (l : List (SelectionOutput × Nat)) (m : SelectionOutput × Nat),
    (∀ x ∈ l, x.1.waste.den = D) →
    minBy resultCmp l = some m →
    m ∈ l ∧ ∀ x ∈ l, keyLe D m x := by
  have haux : ∀ (xs : List (SelectionOutput × Nat)) (acc : SelectionOutput × Nat),
      acc.1.waste.den = D → (∀ y ∈ xs, y.1.waste.den = D) →
      (xs.foldl (fun acc y => if resultCmp acc y = .gt then y else acc) acc ∈ acc :: xs) ∧
      keyLe D (xs.foldl (fun acc y => if resultCmp acc y = .gt then y else acc) acc) acc ∧
      (∀ y ∈ xs, keyLe D
        (xs.foldl (fun acc y => if resultCmp acc y = .gt then y else acc) acc) y) := by
    intro xs
    induction xs with
    | nil =>
      intro acc hacc _
      exact ⟨by simp, keyLe_refl D acc, by simp⟩
    | cons y ys ih =>
      intro acc hacc hys
      have hy : y.1.waste.den = D := hys _ (by simp)
      have hys1 : ∀ z ∈ ys, z.1.waste.den = D := fun z hz => hys z (by simp [hz])
      simp only [List.foldl_cons]
      by_cases hc : resultCmp acc y = .gt
      · rw [if_pos hc]
        obtain ⟨hmem, hle, hall⟩ := ih y hy hys1
        have hyacc : keyLe D y acc := by
          have hnk : ¬ keyLe D acc y :=
            fun hk => ((resultCmp_ne_gt_iff hacc hy).mpr hk) hc
          rcases keyLe_total D y acc with h | h
          · exact h
          · exact absurd h hnk
        refine ⟨by
          rcases List.mem_cons.mp hmem with h | h
          · simp [h]
          · simp [h], keyLe_trans hle hyacc, ?_⟩
        intro z hz
        rcases List.mem_cons.mp hz with h | h
        · exact h ▸ hle
        · exact hall z h
      · rw [if_neg hc]
        obtain ⟨hmem, hle, hall⟩ := ih acc hacc hys1
        have haccy : keyLe D acc y := by
          rw [← resultCmp_ne_gt_iff hacc hy]
          exact hc
        refine ⟨by
          rcases List.mem_cons.mp hmem with h | h
          · simp [h]
          · simp [h], hle, ?_⟩
        intro z hz
        rcases List.mem_cons.mp hz with h | h
        · exact h ▸ keyLe_trans hle haccy
        · exact hall z h
  intro l m hden hmin
  match l with
  | [] => exact absurd hmin (by simp [minBy])
  | x :: xs =>
    have hx : x.1.waste.den = D := hden _ (by simp)
    have hxs : ∀ y ∈ xs, y.1.waste.den = D := fun y hy => hden y (by simp [hy])
    have hm : m = xs.foldl (fun acc y => if resultCmp acc y = .gt then y else acc) x := by
      unfold minBy at hmin
      exact (Option.some.inj hmin).symm
    obtain ⟨hmem, hle, hall⟩ := haux xs x hx hxs
    subst hm
    refine ⟨by
      rcases List.mem_cons.mp hmem with h | h
      · simp [h]
      · simp [h], ?_⟩
    intro z hz
    rcases List.mem_cons.mp hz with h | h
    · exact h ▸ hle
    · exact hall z h

/-- The denominator every waste fraction of one call shares: that of the
long-term feerate (`1` when absent).  `0` here is the NaN case of §7. -/
def wasteDen (opts : CoinSelectionOpt) : Nat :=
  match opts.long_term_feerate with
  | some r => r.den
  | none => 1

theorem calculate_waste_den (opts : CoinSelectionOpt) (v w f : Nat) :
    (calculate_waste opts v w f).den = wasteDen opts := by
  unfold calculate_waste wasteDen
  rcases h : opts.long_term_feerate with _ | r <;>
    simp only <;>
    split_ifs <;>
    simp [Q.sub, Q.add, Q.mulNat, Q.ofNat]

/-- Every waste the `bnb` search records has the shared denominator. -/
theorem bnb_waste_den {opts : CoinSelectionOpt} :
    ∀ (rest : List (Nat × OutputGroup)) (ctx : BnbContext)
      (selected : List Nat) (accValue accWeight : Nat),
    ctx.options = opts →
    (∀ sel w, ctx.best_solution = some (sel, w) → w.den = wasteDen opts) →
    (∀ sel w, (bnb ctx selected accValue accWeight rest).best_solution = some (sel, w) →
      w.den = wasteDen opts) := by
  intro rest
  induction rest with
  | nil =>
    intro ctx selected accValue accWeight _ hbest
    exact hbest
  | cons hd tl ih =>
    intro ctx selected accValue accWeight hopts hbest
    obtain ⟨index, input⟩ := hd
    unfold bnb
    by_cases ht : ctx.tries = 0
    · rw [if_pos ht]
      exact hbest
    · rw [if_neg ht]
      simp only
      split
      · exact hbest
      · split
        · split
          · intro sel w hsome
            simp only at hsome
            have hs := Option.some.inj hsome
            have hw : calculate_waste ctx.options accValue accWeight
                (exceptD ctx.options.min_absolute_fee
                  (calculate_fee accWeight ctx.options.target_feerate)) = w :=
              congrArg Prod.snd hs
            rw [← hw, hopts]
            exact calculate_waste_den opts _ _ _
          · exact hbest
        · intro sel w hsome
          refine ih _ selected accValue accWeight ?_ ?_ sel w hsome
          · rw [(bnb_const _ _ _ _ tl).1]
            exact hopts
          · exact ih { ctx with tries := ctx.tries - 1 } (selected ++ [index]) _ _
              hopts hbest

theorem bnb_ok_waste_den {inputs : List OutputGroup} {options : CoinSelectionOpt}
    {out : SelectionOutput} (h : select_coin_bnb inputs options = .ok out) :
    out.waste.den = wasteDen options := by
  unfold select_coin_bnb at h
  rw [except_bind_ok] at h
  obtain ⟨cpi, hcpi, h⟩ := h
  rw [except_bind_ok] at h
  obtain ⟨cpo, hcpo, h⟩ := h
  rw [except_bind_ok] at h
  obtain ⟨bf, hbf, h⟩ := h
  simp only at h
  split at h
  · rename_i sel waste heq
    have hout : out.waste = waste := by
      have := Except.ok.inj h
      rw [← this]
    rw [hout]
    exact bnb_waste_den _ _ [] 0 0 rfl (by simp) sel waste heq
  · exact absurd h (by simp)

theorem leastchange_ok_waste_den {inputs : List OutputGroup} {options : CoinSelectionOpt}
    {out : SelectionOutput} (h : select_coin_bnb_leastchange inputs options = .ok out) :
    out.waste.den = wasteDen options := by
  unfold select_coin_bnb_leastchange at h
  simp only at h
  split at h
  · have hout := Except.ok.inj h
    rw [← hout]
    exact calculate_waste_den options _ _ _
  · exact absurd h (by simp)

theorem fifo_ok_waste_den {inputs : List OutputGroup} {options : CoinSelectionOpt}
    {out : SelectionOutput} (h : select_coin_fifo inputs options = .ok out) :
    out.waste.den = wasteDen options := by
  unfold select_coin_fifo at h
  rw [except_bind_ok] at h
  obtain ⟨r, hr, h⟩ := h
  split at h
  · have hout := Except.ok.inj h
    rw [← hout]
    exact calculate_waste_den options _ _ _
  · exact absurd h (by simp)

theorem knapsack_ok_waste_den {inputs : List OutputGroup} {options : CoinSelectionOpt}
    {out : SelectionOutput} (h : select_coin_knapsack inputs options = .ok out) :
    out.waste.den = wasteDen options := by
  unfold select_coin_knapsack at h
  rw [except_bind_ok] at h
  obtain ⟨r, hr, h⟩ := h
  split at h
  · simp only at h
    have hout := Except.ok.inj h
    rw [← hout]
    exact calculate_waste_den options _ _ _
  · exact absurd h (by simp)

theorem lowestlarger_ok_waste_den {inputs : List OutputGroup} {options : CoinSelectionOpt}
    {out : SelectionOutput} (h : select_coin_lowestlarger inputs options = .ok out) :
    out.waste.den = wasteDen options := by
  unfold select_coin_lowestlarger at h
  rw [except_bind_ok] at h
  obtain ⟨bf, hbf, h⟩ := h
  rw [except_bind_ok] at h
  obtain ⟨s1, hs1, h⟩ := h
  rw [except_bind_ok] at h
  obtain ⟨target, htarget, h⟩ := h
  simp only at h
  rw [except_bind_ok] at h
  obtain ⟨r1, hr1, h⟩ := h
  rw [except_bind_ok] at h
  obtain ⟨thr1v, hthr1, h⟩ := h
  by_cases hc : r1.2.1 < thr1v
  · rw [if_pos hc] at h
    rw [except_bind_ok] at h
    obtain ⟨r2, hr2, h⟩ := h
    rw [except_bind_ok] at h
    obtain ⟨thr2v, hthr2, h⟩ := h
    split at h
    · exact absurd h (by simp)
    · have hout := Except.ok.inj h
      rw [← hout]
      exact calculate_waste_den options _ _ _
  · rw [if_neg hc] at h
    rw [except_bind_ok] at h
    obtain ⟨r2, hpure, h⟩ := h
    rw [except_bind_ok] at h
    obtain ⟨thr2v, hthr2, h⟩ := h
    split at h
    · exact absurd h (by simp)
    · have hout := Except.ok.inj h
      rw [← hout]
      exact calculate_waste_den options _ _ _

theorem mem_resultsOf {inputs : List OutputGroup} {options : CoinSelectionOpt}
    {x : SelectionOutput × Nat} :
    x ∈ resultsOf inputs options ↔
    ∃ p ∈ algorithms, p.2 inputs options = .ok x.1 ∧
      x.2 = rawSum inputs x.1.selected_inputs - options.target_value := by
  unfold resultsOf
  rw [List.mem_filterMap]
  constructor
  · rintro ⟨p, hp, hfp⟩
    rcases hok : p.2 inputs options with e | r
    · rw [hok] at hfp
      exact absurd hfp (by simp)
    · rw [hok] at hfp
      simp only at hfp
      have h1 : r = x.1 := congrArg Prod.fst (Option.some.inj hfp)
      have h2 : rawSum inputs r.selected_inputs - options.target_value = x.2 :=
        congrArg Prod.snd (Option.some.inj hfp)
    
      exact ⟨p, hp, by rw [hok, h1], by rw [← h2, h1]⟩
  · rintro ⟨p, hp, hok, hchg⟩
    refine ⟨p, hp, ?_⟩
    rw [hok]
    simp only
    rw [← hchg]

theorem resultsOf_den {inputs : List OutputGroup} {options : CoinSelectionOpt} :
    ∀ x ∈ resultsOf inputs options, x.1.waste.den = wasteDen options := by
  intro x hx
  obtain ⟨p, hp, hok, -⟩ := mem_resultsOf.mp hx
  simp only [algorithms, List.mem_cons, List.not_mem_nil, or_false] at hp
  rcases hp with hp | hp | hp | hp | hp <;> subst hp
  · exact bnb_ok_waste_den hok
  · exact fifo_ok_waste_den hok
  · exact lowestlarger_ok_waste_den hok
  · exact knapsack_ok_waste_den hok
  · exact leastchange_ok_waste_den hok

/-- Any `Ok` of `select_coin` is, verbatim, the output of one of the five
registered component algorithms on the same inputs and options. -/
theorem select_coin_ok_from_component (inputs : List OutputGroup) (options : CoinSelectionOpt)
    (out : SelectionOutput) (h : select_coin inputs options = .ok out) :
    ∃ p ∈ algorithms, p.2 inputs options = .ok out := by
  unfold select_coin at h
  by_cases h0 : options.target_value = 0
  · rw [if_pos h0] at h
    exact absurd h (by simp)
  · rw [if_neg h0] at h
    split at h
    · rename_i q heq
      obtain ⟨hqmem, -⟩ := minBy_spec (resultsOf inputs options) q resultsOf_den heq
      obtain ⟨p, hp, hok, -⟩ := mem_resultsOf.mp hqmem
      have : q.1 = out := Except.ok.inj h
      exact ⟨p, hp, by rw [← this]; exact hok⟩
    · exact absurd h (by simp)

/-- **C9.** Any `Ok` of `select_coin` is, verbatim — index list in its order
and waste score included — the output of one of the five registered
component algorithms on the same inputs and options; the meta-selector
never constructs a selection or recomputes a waste of its own. -/
theorem C9_result_from_component (inputs : List OutputGroup) (options : CoinSelectionOpt)
    (out : SelectionOutput) (h : select_coin inputs options = .ok out) :
    ∃ p ∈ algorithms, p.2 inputs options = .ok out :=
  select_coin_ok_from_component inputs options out h

/-- **C2.** When `select_coin` returns `Ok`, the returned result minimises —
over all component algorithms succeeding on the same `(inputs, options)` —
the lexicographic tuple (change, waste, selection size): change (saturating
raw-value surplus) and size compare as integers, waste compares as the `f32`
score, with non-finite (NaN) wastes tied, which `keyLe` makes precise. -/
theorem C2_meta_selector_optimal (inputs : List OutputGroup) (options : CoinSelectionOpt)
    (out : SelectionOutput) (h : select_coin inputs options = .ok out) :
    ∀ p ∈ algorithms, ∀ r, p.2 inputs options = .ok r →
      keyLe (wasteDen options)
        (out, rawSum inputs out.selected_inputs - options.target_value)
        (r, rawSum inputs r.selected_inputs - options.target_value) := by
  intro p hp r hok
  unfold select_coin at h
  by_cases h0 : options.target_value = 0
  · rw [if_pos h0] at h
    exact absurd h (by simp)
  · rw [if_neg h0] at h
    split at h
    · rename_i q heq
      obtain ⟨hqmem, hmin⟩ := minBy_spec (resultsOf inputs options) q resultsOf_den heq
      obtain ⟨-, -, -, hchg⟩ := mem_resultsOf.mp hqmem
      have hq1 : q.1 = out := Except.ok.inj h
      have hrmem : (r, rawSum inputs r.selected_inputs - options.target_value) ∈
          resultsOf inputs options :=
        mem_resultsOf.mpr ⟨p, hp, hok, rfl⟩
      have := hmin _ hrmem
      have hqeq : q = (out, rawSum inputs out.selected_inputs - options.target_value) := by
        rw [← hq1]
        exact Prod.ext rfl hchg
      rw [← hqeq]
      exact this
    · exact absurd h (by simp)

theorem match_none_iff_isErr {x : Except SelectionError SelectionOutput}
    {inputs : List OutputGroup} {options : CoinSelectionOpt} :
    (match x with
      | .ok result =>
        some (result, rawSum inputs result.selected_inputs - options.target_value)
      | .error _ => (none : Option (SelectionOutput × Nat))) = none ↔ isErr x = true := by
  cases x <;> simp [isErr]

/-- **C6.** With a positive target, `select_coin` fails exactly when every
component algorithm fails, and in that case the reported error is
`InsufficientFunds` whatever the component errors were. -/
theorem C6_all_fail_insufficient (inputs : List OutputGroup) (options : CoinSelectionOpt)
    (h0 : 0 < options.target_value) :
    ((isErr (select_coin inputs options) = true) ↔
      ∀ p ∈ algorithms, isErr (p.2 inputs options) = true) ∧
    (∀ e, select_coin inputs options = .error e → e = .InsufficientFunds) := by
  have h0' : ¬ options.target_value = 0 := by omega
  unfold select_coin
  rw [if_neg h0']
  rcases hm : minBy resultCmp (resultsOf inputs options) with _ | q
  · have hnil : resultsOf inputs options = [] := by
      rcases hL : resultsOf inputs options with _ | ⟨y, ys⟩
      · rfl
      · rw [hL] at hm
        exact absurd hm (by simp [minBy])
    constructor
    · constructor
      · intro _ p hp
        have := List.filterMap_eq_nil_iff.mp hnil p hp
        exact match_none_iff_isErr.mp this
      · intro _
        rfl
    · intro e he
      exact (Except.error.inj he).symm
  · constructor
    · constructor
      · intro hft
        exact absurd hft (by simp [isErr])
      · intro hall
        exfalso
        obtain ⟨hqmem, -⟩ := minBy_spec (resultsOf inputs options) q resultsOf_den hm
        obtain ⟨p, hp, hok, -⟩ := mem_resultsOf.mp hqmem
        have := hall p hp
        rw [hok] at this
        exact absurd this (by simp [isErr])
    · intro e he
      exact absurd he (by simp)

/-- Index validity of an algorithm result: any `Ok` selection indexes the
input slice in range and without repetition. -/
def OkValid (inputs : List OutputGroup) (r : Except SelectionError SelectionOutput) : Prop :=
  ∀ out, r = .ok out → out.selected_inputs.Nodup ∧
    ∀ i ∈ out.selected_inputs, i < inputs.length

theorem bnb_okValid (inputs : List OutputGroup) (options : CoinSelectionOpt) :
    OkValid inputs (select_coin_bnb inputs options) := by
  intro out h
  obtain ⟨-, hnd, hbnd, -, -⟩ := bnb_ok_good out h
  exact ⟨hnd, hbnd⟩

theorem leastchange_okValid (inputs : List OutputGroup) (options : CoinSelectionOpt) :
    OkValid inputs (select_coin_bnb_leastchange inputs options) := by
  intro out h
  have hfilt : ∀ x ∈ stableSort byNetDesc (inputs.enum.filterMap
      (lcFilter options.target_feerate)), FiltOk inputs options.target_feerate x :=
    fun x hx => lc_filtered_ok hx
  have hnd := lc_filtered_fst_nodup inputs options.target_feerate
  have hinit : ∀ st ∈ [(⟨0, 0, [], 0, 0⟩ : BnBState)],
      StInv inputs options.target_feerate
        (stableSort byNetDesc (inputs.enum.filterMap (lcFilter options.target_feerate))) st := by
    intro st hst
    rw [List.mem_singleton] at hst
    subst hst
    exact ⟨rfl, rfl, List.nodup_nil, by simp, by simp⟩
  have hgood := lcLoop_inv options
    (options.target_value + options.min_change_value) hfilt hnd
    (3 ^ ((stableSort byNetDesc (inputs.enum.filterMap
      (lcFilter options.target_feerate))).length + 1))
    _ none hinit (by simp)
  unfold select_coin_bnb_leastchange at h
  simp only at h
  split at h
  · rename_i sel ch cnt heq
    have hlc := hgood sel ch cnt heq
    have hout : out.selected_inputs = sel := by
      have := Except.ok.inj h
      rw [← this]
    rw [hout]
    exact ⟨hlc.1, hlc.2.1⟩
  · exact absurd h (by simp)

theorem accumulate_ok_true_valid {fr : Q} {thr : Nat → Except SelectionError Nat}
    {items : List (Nat × OutputGroup)} {v w f v' w' f' : Nat}
    {sel sel' : List Nat} :
    accumulate fr thr items v w f sel = .ok (true, v', w', f', sel') → validRate fr := by
  intro h
  match items with
  | [] =>
    unfold accumulate at h
    have := Except.ok.inj h
    exact absurd (congrArg Prod.fst this) (by simp)
  | (idx, input) :: rest =>
    unfold accumulate at h
    rw [except_bind_ok] at h
    obtain ⟨v1, hv1, h⟩ := h
    rw [except_bind_ok] at h
    obtain ⟨w1, hw1, h⟩ := h
    rw [except_bind_ok] at h
    obtain ⟨f1, hf1, h⟩ := h
    exact validRate_of_fee_ok hf1

/-- A prefix-of-a-permutation-of-`enum` selection is valid. -/
theorem selFromBase_valid {inputs : List OutputGroup}
    {base : List (Nat × OutputGroup)} (hperm : base.Perm inputs.enum)
    {pre : List (Nat × OutputGroup)} (hsub : pre.Sublist base) :
    (pre.map Prod.fst).Nodup ∧ ∀ i ∈ pre.map Prod.fst, i < inputs.length := by
  constructor
  · exact ((hsub.map Prod.fst).nodup)
      (((hperm.map Prod.fst).nodup_iff).mpr (enum_fst_nodup inputs))
  · intro i hi
    obtain ⟨p, hp, hpi⟩ := List.mem_map.mp hi
    have hmem : p ∈ inputs.enum := hperm.mem_iff.mp (hsub.subset hp)
    exact hpi ▸ (entOk_of_mem_enum hmem).1

theorem fifo_okValid (inputs : List OutputGroup) (options : CoinSelectionOpt) :
    OkValid inputs (select_coin_fifo inputs options) := by
  intro out h
  unfold select_coin_fifo at h
  rw [except_bind_ok] at h
  obtain ⟨r, hr, h⟩ := h
  obtain ⟨b, v', w', f', sel'⟩ := r
  split at h
  · rename_i hb
    simp only at hb
    subst hb
    have hvr := accumulate_ok_true_valid hr
    have hout : out.selected_inputs = sel' := by
      have := Except.ok.inj h
      rw [← this]
    obtain ⟨⟨pre, post, hsplit, hsel⟩, -, -, -, -, -⟩ :=
      accumulate_spec inputs hr
        (fun p hp => stableSort_entOk hp)
        (rawSum_nil inputs).symm (weightSum_nil inputs).symm
        (feeVal_zero hvr).symm hvr
    rw [hout, hsel, List.nil_append]
    exact selFromBase_valid (stableSort_perm fifoLe inputs.enum)
      (hsplit ▸ List.sublist_append_left pre post)
  · exact absurd h (by simp)

theorem knapPrune_shape {fr : Q} {thr : Nat → Except SelectionError Nat} :
    ∀ (todo kept : List (Nat × OutputGroup)) (v w : Nat),
    ∃ s, s.Sublist todo ∧ (knapPrune fr thr todo kept v w).1 = kept ++ s := by
  intro todo
  induction todo with
  | nil =>
    intro kept v w
    exact ⟨[], by simp, by simp [knapPrune]⟩
  | cons hd rest ih =>
    intro kept v w
    obtain ⟨idx, input⟩ := hd
    unfold knapPrune
    simp only
    split
    · obtain ⟨s, hsub, heq⟩ := ih kept (v - input.value) (w - input.weight)
      exact ⟨s, hsub.cons _, heq⟩
    · obtain ⟨s, hsub, heq⟩ := ih (kept ++ [(idx, input)]) v w
      refine ⟨(idx, input) :: s, hsub.cons₂ _, ?_⟩
      rw [heq, List.append_assoc]
      rfl

theorem knapsack_okValid (inputs : List OutputGroup) (options : CoinSelectionOpt) :
    OkValid inputs (select_coin_knapsack inputs options) := by
  intro out h
  unfold select_coin_knapsack at h
  rw [except_bind_ok] at h
  obtain ⟨r, hr, h⟩ := h
  obtain ⟨b, v', w', f', sel'⟩ := r
  split at h
  · rename_i hb
    simp only at hb
    subst hb
    have hvr := accumulate_ok_true_valid hr
    obtain ⟨⟨pre, post, hsplit, hsel⟩, -, -, -, -, -⟩ :=
      accumulate_spec inputs hr
        (fun p hp => entOk_of_mem_enum hp)
        (rawSum_nil inputs).symm (weightSum_nil inputs).symm
        (feeVal_zero hvr).symm hvr
    rw [List.nil_append] at hsel
    subst hsel
    simp only at h
    obtain ⟨s, hsub, heq⟩ := knapPrune_shape
      ((pre.map Prod.fst).map (fun i => (i, inputs.getD i default))) [] v' w'
    have hout : out.selected_inputs = s.map (fun q => q.1) := by
      have := Except.ok.inj h
      rw [← this]
      simp only
      rw [heq, List.nil_append]
    have hselv := selFromBase_valid (List.Perm.refl inputs.enum)
      (hsplit ▸ List.sublist_append_left pre post)
    have hmapsub : (s.map (fun q : Nat × OutputGroup => q.1)).Sublist (pre.map Prod.fst) := by
      have h2 := hsub.map (fun q : Nat × OutputGroup => q.1)
      simpa [List.map_map, Function.comp] using h2
    rw [hout]
    constructor
    · exact hmapsub.nodup hselv.1
    · intro i hi
      exact hselv.2 i (hmapsub.subset hi)
  · exact absurd h (by simp)

theorem sublist_of_eq_append {α : Type} {items pre post : List α}
    (h : items = pre ++ post) : pre.Sublist items := by
  rw [h]
  exact List.sublist_append_left pre post

theorem lowestlarger_okValid (inputs : List OutputGroup) (options : CoinSelectionOpt) :
    OkValid inputs (select_coin_lowestlarger inputs options) := by
  intro out h
  unfold select_coin_lowestlarger at h
  rw [except_bind_ok] at h
  obtain ⟨bf, hbf, h⟩ := h
  have hvr : validRate options.target_feerate := validRate_of_fee_ok hbf
  rw [except_bind_ok] at h
  obtain ⟨s1, hs1, h⟩ := h
  rw [except_bind_ok] at h
  obtain ⟨target, htarget, h⟩ := h
  simp only at h
  rw [except_bind_ok] at h
  obtain ⟨r1, hr1, h⟩ := h
  rw [except_bind_ok] at h
  obtain ⟨thr1v, hthr1, h⟩ := h
  obtain ⟨⟨pre1, post1, hsplit1, hsel1⟩, hv1, hw1, hf1, -, -⟩ :=
    accumulate_spec inputs hr1
      (fun p hp => stableSort_entOk (List.mem_of_mem_take (List.mem_reverse.mp hp)))
      (rawSum_nil inputs).symm (weightSum_nil inputs).symm (feeVal_zero hvr).symm hvr
  rw [List.nil_append] at hsel1
  have hbase : ∀ n : Nat,
      (((stableSort (llSortLe options.target_feerate) inputs.enum).take n).reverse ++
        (stableSort (llSortLe options.target_feerate) inputs.enum).drop n).Perm
        inputs.enum := by
    intro n
    refine ((List.reverse_perm _).append_right _).trans ?_
    rw [List.take_append_drop]
    exact stableSort_perm _ _
  by_cases hc : r1.2.1 < thr1v
  · rw [if_pos hc] at h
    rw [except_bind_ok] at h
    obtain ⟨r2, hr2, h⟩ := h
    obtain ⟨⟨pre2, post2, hsplit2, hsel2⟩, -, -, -, -, -⟩ :=
      accumulate_spec inputs hr2
        (fun p hp => stableSort_entOk (List.mem_of_mem_drop hp))
        hv1 hw1 hf1 hvr
    rw [except_bind_ok] at h
    obtain ⟨thr2v, hthr2, h⟩ := h
    split at h
    · exact absurd h (by simp)
    · have hout : out.selected_inputs = r2.2.2.2.2 := by
        have := Except.ok.inj h
        rw [← this]
      rw [hout, hsel2, hsel1, ← List.map_append]
      exact selFromBase_valid (hbase _)
        ((sublist_of_eq_append hsplit1).append (sublist_of_eq_append hsplit2))
  · rw [if_neg hc] at h
    rw [except_bind_ok] at h
    obtain ⟨r2, hpure, h⟩ := h
    have hr12 : r1 = r2 := by
      simpa [pure, Except.pure] using hpure
    subst hr12
    rw [except_bind_ok] at h
    obtain ⟨thr2v, hthr2, h⟩ := h
    split at h
    · exact absurd h (by simp)
    · have hout : out.selected_inputs = r1.2.2.2.2 := by
        have := Except.ok.inj h
        rw [← this]
      rw [hout, hsel1]
      exact selFromBase_valid (hbase _)
        ((sublist_of_eq_append hsplit1).trans (List.sublist_append_left _ _))

/-- **C8.** For `select_coin` and every per-algorithm entry point, any `Ok`
result's selected indices are pairwise distinct and all strictly below the
length of the input slice. -/
theorem C8_index_validity (inputs : List OutputGroup) (options : CoinSelectionOpt) :
    OkValid inputs (select_coin inputs options) ∧
    OkValid inputs (select_coin_bnb inputs options) ∧
    OkValid inputs (select_coin_fifo inputs options) ∧
    OkValid inputs (select_coin_lowestlarger inputs options) ∧
    OkValid inputs (select_coin_knapsack inputs options) ∧
    OkValid inputs (select_coin_bnb_leastchange inputs options) := by
  refine ⟨?_, bnb_okValid inputs options, fifo_okValid inputs options,
    lowestlarger_okValid inputs options, knapsack_okValid inputs options,
    leastchange_okValid inputs options⟩
  intro out h
  obtain ⟨p, hp, hok⟩ := select_coin_ok_from_component inputs options out h
  simp only [algorithms, List.mem_cons, List.not_mem_nil, or_false] at hp
  rcases hp with hp | hp | hp | hp | hp <;> subst hp
  · exact bnb_okValid inputs options out hok
  · exact fifo_okValid inputs options out hok
  · exact lowestlarger_okValid inputs options out hok
  · exact knapsack_okValid inputs options out hok
  · exact leastchange_okValid inputs options out hok

theorem except_error_bind_eq {α β : Type} (e : SelectionError)
    (f : α → Except SelectionError β) :
    ((.error e : Except SelectionError α) >>= f) = .error e := rfl

/-- **C5 (amended).** On a negative or non-finite feerate, `select_coin_bnb`
and `select_coin_lowestlarger` propagate `InvalidFeeRate` from their entry
fee computations; `select_coin_bnb_leastchange` instead swallows the failed
per-input effective-value computations inside its `filter_map`, drops every
input, and reports `InsufficientFunds`. -/
theorem C5_error_propagation_amended (inputs : List OutputGroup) (options : CoinSelectionOpt)
    (hinv : ¬ validRate options.target_feerate) :
    select_coin_bnb inputs options = .error .InvalidFeeRate ∧
    select_coin_lowestlarger inputs options = .error .InvalidFeeRate ∧
    select_coin_bnb_leastchange inputs options = .error .InsufficientFunds := by
  refine ⟨?_, ?_, ?_⟩
  · unfold select_coin_bnb
    rw [calculate_fee_eq_error _ hinv]
    exact except_error_bind_eq _ _
  · unfold select_coin_lowestlarger
    rw [calculate_fee_eq_error _ hinv]
    exact except_error_bind_eq _ _
  · unfold select_coin_bnb_leastchange
    have hnil : inputs.enum.filterMap (lcFilter options.target_feerate) = [] := by
      refine List.filterMap_eq_nil_iff.mpr ?_
      intro p _
      unfold lcFilter effective_value
      rw [calculate_fee_eq_error _ hinv]
      rfl
    rw [hnil]
    rfl

/-! ## Concrete instances for the failing inputs, counterexamples and
witnesses -/

def c1In : List OutputGroup := [⟨1, 1, 1, none⟩, ⟨1, 1, 1, none⟩, ⟨1, 1, 1, none⟩]

def c1Opt : CoinSelectionOpt := ⟨1, ⟨1, 2⟩, none, 0, 0, 0, 0, 0, 0, 0, .ToFee⟩

/-- **C1 (failing input).** Three 1-sat inputs of weight 1 at feerate 1/2,
target 1: every input's effective value is 0, yet `select_coin` succeeds —
the winning selection's effective-value total is 0 < 1, violating the
Coverage invariant asserted by the spec (§8.1) and by the repository's own
property test `solutions_fulfill_target`.  The same violation comes from the
real `select_coin_lowestlarger` code on the same input, whose admission
checks raw value against the fee-inclusive target rather than effective
value. -/
theorem C1_coverage_failing_input :
    select_coin c1In c1Opt = .ok ⟨[0, 1], ⟨1, 1⟩⟩ ∧
    effSum c1In c1Opt.target_feerate [0, 1] = 0 ∧
    select_coin_lowestlarger c1In c1Opt = .ok ⟨[2, 1], ⟨1, 1⟩⟩ ∧
    effSum c1In c1Opt.target_feerate [2, 1] = 0 ∧
    0 < c1Opt.target_value := by decide

def c3In : List OutputGroup := [⟨2000, 500, 1, none⟩, ⟨3000, 1, 1, none⟩]

def c3Opt : CoinSelectionOpt := ⟨500, ⟨1, 1⟩, none, 0, 0, 0, 0, 1000, 0, 0, .ToFee⟩

/-- **C3 (counterexample).** `select_coin_bnb` returns `Ok` with a selection
whose pre-fee (raw) value sum, 2000, lies strictly above
`target_for_match + match_range = 500 + 1000`: the window of the claim does
not bound the raw value sum. -/
theorem C3_counterexample :
    select_coin_bnb c3In c3Opt = .ok ⟨[0], ⟨1000, 1⟩⟩ ∧
    c3Opt.target_value + c3Opt.min_change_value +
        max (feeVal c3Opt.base_weight c3Opt.target_feerate) c3Opt.min_absolute_fee +
        (feeVal c3Opt.avg_input_weight c3Opt.target_feerate +
          feeVal c3Opt.avg_output_weight c3Opt.target_feerate)
      < rawSum c3In [0] := by decide

/-- Witness for C3's amended window property at a concrete run. -/
theorem C3_witness :
    c3Opt.target_value + c3Opt.min_change_value +
        max (feeVal c3Opt.base_weight c3Opt.target_feerate) c3Opt.min_absolute_fee
      ≤ effSum c3In c3Opt.target_feerate [0] -
          feeVal (weightSum c3In [0]) c3Opt.target_feerate ∧
    effSum c3In c3Opt.target_feerate [0] -
        feeVal (weightSum c3In [0]) c3Opt.target_feerate
      ≤ c3Opt.target_value + c3Opt.min_change_value +
          max (feeVal c3Opt.base_weight c3Opt.target_feerate) c3Opt.min_absolute_fee +
        (feeVal c3Opt.avg_input_weight c3Opt.target_feerate +
          feeVal c3Opt.avg_output_weight c3Opt.target_feerate) :=
  (C3_bnb_window_amended c3In c3Opt).1 ⟨[0], ⟨1000, 1⟩⟩ (by decide)

def c5In : List OutputGroup := [⟨100, 10, 1, none⟩]

def c5Opt : CoinSelectionOpt := ⟨50, ⟨-1, 1⟩, none, 0, 0, 0, 0, 0, 0, 0, .ToFee⟩

/-- **C5 (counterexample).** With feerate −1 the internal fee computation
for the single input (weight 10) fails with `InvalidFeeRate`, yet
`select_coin_bnb_leastchange` does not return that error: it reports
`InsufficientFunds`. -/
theorem C5_counterexample :
    calculate_fee 10 c5Opt.target_feerate = .error .InvalidFeeRate ∧
    select_coin_bnb_leastchange c5In c5Opt = .error .InsufficientFunds := by decide

/-- Witness for C5's amended propagation behaviour at a concrete feerate. -/
theorem C5_witness :
    ¬ validRate c5Opt.target_feerate ∧
    (select_coin_bnb c5In c5Opt = .error .InvalidFeeRate ∧
      select_coin_lowestlarger c5In c5Opt = .error .InvalidFeeRate ∧
      select_coin_bnb_leastchange c5In c5Opt = .error .InsufficientFunds) :=
  ⟨by decide, C5_error_propagation_amended c5In c5Opt (by decide)⟩

def c2wIn : List OutputGroup := [⟨2000, 10, 1, some 0⟩, ⟨3000, 20, 1, some 1⟩]

def c2wOpt : CoinSelectionOpt := ⟨1000, ⟨1, 1⟩, none, 0, 10, 0, 0, 10, 10, 0, .ToFee⟩

/-- Witness for C2 at a concrete run: the winner's tuple is `keyLe` the
FIFO result's tuple. -/
theorem C2_witness :
    keyLe (wasteDen c2wOpt)
      (⟨[0], ⟨1000, 1⟩⟩, rawSum c2wIn [0] - c2wOpt.target_value)
      (⟨[0], ⟨1000, 1⟩⟩, rawSum c2wIn [0] - c2wOpt.target_value) :=
  C2_meta_selector_optimal c2wIn c2wOpt ⟨[0], ⟨1000, 1⟩⟩ (by decide)
    ("fifo", select_coin_fifo) (by simp [algorithms]) ⟨[0], ⟨1000, 1⟩⟩ (by decide)

def c4wIn : List OutputGroup := [⟨5000, 10, 1, none⟩]

def c4wOpt : CoinSelectionOpt := ⟨1000, ⟨1, 1⟩, none, 0, 10, 0, 0, 10, 10, 0, .ToFee⟩

/-- Witness for C4 at a concrete run of the least-change search. -/
theorem C4_witness :
    c4wOpt.target_value +
        max (exceptD 0 (calculate_fee (weightSum c4wIn [0]) c4wOpt.target_feerate))
          c4wOpt.min_absolute_fee +
        c4wOpt.min_change_value
      ≤ effSum c4wIn c4wOpt.target_feerate [0] :=
  (C4_leastchange_admission c4wIn c4wOpt).1 ⟨[0], ⟨4000, 1⟩⟩ (by decide)

def c6wIn : List OutputGroup := [⟨1, 1, 1, none⟩]

def c6wOpt : CoinSelectionOpt := ⟨100, ⟨1, 1⟩, none, 0, 0, 0, 0, 0, 0, 0, .ToFee⟩

/-- Witness for C6: on an insufficient input set, failure of the
meta-selector transfers to every component algorithm. -/
theorem C6_witness : isErr (select_coin_bnb c6wIn c6wOpt) = true :=
  (C6_all_fail_insufficient c6wIn c6wOpt (by decide)).1.mp (by decide)
    ("bnb", select_coin_bnb) (by simp [algorithms])

def c7wIn : List OutputGroup := [⟨5000, 10, 1, none⟩]

def c7wOpt : CoinSelectionOpt := ⟨1000, ⟨1, 1⟩, none, 0, 10, 0, 0, 10, 10, 0, .ToFee⟩

/-- Witness for C7 at a concrete run of lowest-larger. -/
theorem C7_witness :
    c7wOpt.target_value + c7wOpt.min_change_value +
        max (feeVal c7wOpt.base_weight c7wOpt.target_feerate) c7wOpt.min_absolute_fee +
        feeVal (weightSum c7wIn [0]) c7wOpt.target_feerate
      ≤ rawSum c7wIn [0] :=
  (C7_lowestlarger c7wIn c7wOpt).1 ⟨[0], ⟨4000, 1⟩⟩ (by decide)

def c8wIn : List OutputGroup := [⟨2000, 10, 1, some 0⟩, ⟨3000, 20, 1, some 1⟩]

def c8wOpt : CoinSelectionOpt := ⟨1000, ⟨1, 1⟩, none, 0, 10, 0, 0, 10, 10, 0, .ToFee⟩

/-- Witness for C8 at a concrete run of the meta-selector. -/
theorem C8_witness : (selectedOf (select_coin c8wIn c8wOpt)).Nodup :=
  ((C8_index_validity c8wIn c8wOpt).1 ⟨[0], ⟨1000, 1⟩⟩ (by decide)).1

def c9wIn : List OutputGroup := [⟨2000, 10, 1, some 0⟩, ⟨3000, 20, 1, some 1⟩]

def c9wOpt : CoinSelectionOpt := ⟨1000, ⟨1, 1⟩, none, 0, 10, 0, 0, 10, 10, 0, .ToFee⟩

/-- Witness for C9 at a concrete run of the meta-selector. -/
theorem C9_witness :
    ∃ p ∈ algorithms, p.2 c9wIn c9wOpt = .ok ⟨[0], ⟨1000, 1⟩⟩ :=
  C9_result_from_component c9wIn c9wOpt ⟨[0], ⟨1000, 1⟩⟩ (by decide)

def c10wIn : List OutputGroup := [⟨5, 5, 1, none⟩]

def c10wOpt : CoinSelectionOpt := ⟨0, ⟨1, 1⟩, none, 0, 0, 0, 0, 0, 0, 0, .ToFee⟩

/-- Witness for C10 at a concrete zero-target run. -/
theorem C10_witness :
    select_coin_bnb c10wIn c10wOpt = .ok ⟨[], calculate_waste c10wOpt 0 0 0⟩ ∧
    select_coin c10wIn c10wOpt = .error .NonPositiveTarget :=
  C10_zero_target_bnb c10wIn c10wOpt (by decide) (by decide) (by decide) (by decide)
    (by decide)
